import Mathlib

/-!
Verification of the PythonRefactorToolBox refactoring engine.

Shallow embedding of the core of `src/python_refactor_tool_box`:
the identifier normalizer (`snake_case.py`), the code-index operations and
dependency resolvers (`ast_helper.py`), the structural comparator
(`code_compare_helper.py`), and the class-extraction engine
(`source_file.py`).  Python character classification is modelled on its
ASCII fragment; Python `ast` nodes are modelled by first-order values
carrying the fields the engine actually reads (kind, names, referenced
identifiers, and an identity tag standing for CPython object identity).
-/

namespace PyRefactor

/-! ## Character model (ASCII fragment of Python's str methods) -/

/-- Model of Python `str.isdigit` on ASCII: code points 48..57. -/
def pyIsDigit (c : Char) : Bool := decide (48 ≤ c.toNat) && decide (c.toNat ≤ 57)

/-- Model of Python `str.islower` on ASCII: code points 97..122. -/
def pyIsLower (c : Char) : Bool := decide (97 ≤ c.toNat) && decide (c.toNat ≤ 122)

/-- Model of Python `str.isupper` on ASCII: code points 65..90. -/
def pyIsUpper (c : Char) : Bool := decide (65 ≤ c.toNat) && decide (c.toNat ≤ 90)

/-- Model of Python `str.isalnum` on ASCII: a letter or a digit. -/
def pyIsAlnum (c : Char) : Bool := pyIsUpper c || pyIsLower c || pyIsDigit c

/-- Model of Python whitespace (`str.strip`, regex `\s`) on ASCII:
space and the control characters 9..13 (tab, newline, vtab, formfeed, return). -/
def pyIsSpace (c : Char) : Bool :=
  decide (c.toNat = 32) || (decide (9 ≤ c.toNat) && decide (c.toNat ≤ 13))

/-- Model of the regex class `\w` on ASCII: alphanumeric or underscore. -/
def pyIsWord (c : Char) : Bool := pyIsAlnum c || c = '_'

/-- Model of Python `str.lower` on one ASCII character. -/
def pyToLower (c : Char) : Char :=
  if pyIsUpper c then Char.ofNat (c.toNat + 32) else c

/-- A character matched by the regex `[-\s]` in `to_snake_case`. -/
def isHS (c : Char) : Bool := c = '-' || pyIsSpace c

def notAlnum (c : Char) : Bool := !pyIsAlnum c

def lowerDigit (c : Char) : Bool := pyIsLower c || pyIsDigit c

def upperDigit (c : Char) : Bool := pyIsUpper c || pyIsDigit c

/-! ## `snake_case.to_snake_case` -/

/-- Model of Python `str.strip()`: drop leading and trailing whitespace
(`snake_case.py` line 10). -/
def pyStrip (s : List Char) : List Char :=
  ((s.dropWhile pyIsSpace).reverse.dropWhile pyIsSpace).reverse

/-- Model of `re.sub(r"[-\s]+", "_", name)` (`snake_case.py` line 38):
each maximal run of hyphens/whitespace becomes a single underscore.  The
boolean flag records whether the scanner is inside such a run. -/
def subHS : Bool → List Char → List Char
  | _, [] => []
  | b, c :: rest =>
    if isHS c then
      if b then subHS true rest else '_' :: subHS true rest
    else c :: subHS false rest

/-- Model of `re.sub(r"[^\w\s]", "", name)` (`snake_case.py` line 39):
keep only word characters and whitespace. -/
def subSpecial (s : List Char) : List Char :=
  s.filter (fun c => pyIsWord c || pyIsSpace c)

/-- The back-off loop of the uppercase branch (`snake_case.py` lines 66-67),
on the reversed token: while the token is nonempty and the character after it
is lowercase, move the token's last character back onto the remaining input. -/
def backOffRev : List Char → List Char → List Char × List Char
  | [], rest => ([], rest)
  | t :: ts, [] => (t :: ts, [])
  | t :: ts, r :: rs =>
    if pyIsLower r then backOffRev ts (t :: r :: rs) else (t :: ts, r :: rs)

/-- The back-off loop on a token in scan order. -/
def backOff (tok rest : List Char) : List Char × List Char :=
  let p := backOffRev tok.reverse rest
  (p.1.reverse, p.2)

/-- One iteration of the word-extraction loop of `to_snake_case`
(`snake_case.py` lines 51-81): split the next token off the remaining
input.  The index arithmetic of the source is rendered with
takeWhile/dropWhile: `start_index`/`end_index` always delimit the front
of the unconsumed input. -/
def splitTok : List Char → List Char × List Char
  | [] => ([], [])
  | c :: cs =>
    if pyIsDigit c then
      ((c :: cs).takeWhile pyIsDigit, (c :: cs).dropWhile pyIsDigit)
    else if pyIsLower c then
      ((c :: cs).takeWhile lowerDigit, (c :: cs).dropWhile lowerDigit)
    else if pyIsUpper c then
      let run := (c :: cs).takeWhile upperDigit
      let aft := (c :: cs).dropWhile upperDigit
      if 1 < run.length && !aft.isEmpty then backOff run aft
      else (run ++ aft.takeWhile lowerDigit, aft.dropWhile lowerDigit)
    else ([c], cs)

/-- The word-extraction loop, fuelled (one unit of fuel per extracted token;
each token is nonempty, so fuel `s.length` is always enough).  A token equal
to `"_"` is not appended to the word list (`snake_case.py` line 78). -/
def extractWordsAux : Nat → List Char → List (List Char)
  | 0, _ => []
  | _ + 1, [] => []
  | fuel + 1, c :: cs =>
    let p := splitTok (c :: cs)
    let ws := extractWordsAux fuel p.2
    if p.1 = ['_'] then ws else p.1 :: ws

def extractWords (s : List Char) : List (List Char) :=
  extractWordsAux s.length s

/-- Model of `"_".join(words)` (`snake_case.py` line 84). -/
def joinWords : List (List Char) → List Char
  | [] => []
  | [w] => w
  | w :: ws => w ++ '_' :: joinWords ws

/-- Does `s` start with `pre`?  Model of Python `str.startswith`. -/
def leadsWith : List Char → List Char → Bool
  | [], _ => true
  | _ :: _, [] => false
  | a :: xs, b :: ys => a = b && leadsWith xs ys

/-- Model of Python `str.replace(old, new)` (all occurrences, scanned left
to right), fuelled.  Every call site passes a nonempty `old`, so one unit
of fuel per input character is enough. -/
def pyReplaceAux : Nat → List Char → List Char → List Char → List Char
  | 0, _, _, s => s
  | _ + 1, _, _, [] => []
  | fuel + 1, old, nw, c :: rest =>
    if leadsWith old (c :: rest) then
      nw ++ pyReplaceAux fuel old nw ((c :: rest).drop old.length)
    else c :: pyReplaceAux fuel old nw rest

def pyReplace (s old nw : List Char) : List Char :=
  pyReplaceAux s.length old nw s

/-- The main path of `to_snake_case` (`snake_case.py` lines 36-86), reached
when the stripped input begins and ends with an alphanumeric character:
substitute hyphen/whitespace runs, drop other non-word characters, extract
words, lowercase them and join with underscores. -/
def mainPath (t : List Char) : List Char :=
  let u := subSpecial (subHS false t)
  if u.isEmpty then u
  else joinWords ((extractWords u).map (List.map pyToLower))

/-- The body of `to_snake_case` (`snake_case.py` lines 4-86) with the
recursive call (line 32, on the trimmed inner span) abstracted as `rec`.
`pre`/`suf` are the leading/trailing runs of non-alphanumeric characters of
the stripped input, computed by the two index loops at lines 20-27. -/
def snakeBody (rec : List Char → List Char) (s : List Char) : List Char :=
  if s.isEmpty then s
  else
    let t := pyStrip s
    if t.isEmpty then t
    else
      let pre := t.takeWhile notAlnum
      let rest := t.dropWhile notAlnum
      if rest.isEmpty then t
      else
        let suf := (rest.reverse.takeWhile notAlnum).reverse
        let inn := (rest.reverse.dropWhile notAlnum).reverse
        if !pre.isEmpty || !suf.isEmpty then
          pyReplace t inn (rec inn)
        else mainPath t

/-- `to_snake_case`, fuelled: one unit of fuel per level of the
trim-and-splice recursion (the inner span is strictly shorter, so fuel
`s.length` is always enough). -/
def toSnakeAux : Nat → List Char → List Char
  | 0, s => s
  | fuel + 1, s => snakeBody (toSnakeAux fuel) s

def toSnakeList (s : List Char) : List Char :=
  toSnakeAux s.length s

/-- Model of `snake_case.to_snake_case`.  `None` is not representable as a
Lean `String`; the `if not name` guard for `None`/empty inputs is the
`s.isEmpty` branch. -/
def to_snake_case (s : String) : String :=
  ⟨toSnakeList s.data⟩

/-! ## String helpers used by the engine -/

/-- Model of Python `str.startswith`. -/
def strStarts (s p : String) : Bool := leadsWith p.data s.data

/-- Model of Python `str.replace(old, new, 1)`: substitute the first
occurrence only, scanning left to right. -/
def replaceFirst (old nw : List Char) : List Char → List Char
  | [] => if leadsWith old [] then nw else []
  | c :: rest =>
    if leadsWith old (c :: rest) then nw ++ (c :: rest).drop old.length
    else c :: replaceFirst old nw rest

def strReplaceFirst (s old nw : String) : String :=
  ⟨replaceFirst old.data nw.data s.data⟩

/-- Model of Python `name.split(".")[0]`. -/
def topName (s : String) : String := ⟨s.data.takeWhile (fun c => decide (c ≠ '.'))⟩

/-- Model of Python `str.lower` on a whole string (ASCII). -/
def strLower (s : String) : String := ⟨s.data.map pyToLower⟩

/-- Model of `os.path.join(directory, f"{module_name}.py")`
(`source_file.py` line 287). -/
def pathOf (dir m : String) : String := dir ++ "/" ++ m ++ ".py"

/-- Model of `os.path.basename`. -/
def baseName (p : String) : String :=
  ⟨(p.data.reverse.takeWhile (fun c => decide (c ≠ '/'))).reverse⟩

/-- Model of the `SourceFile.module` property: file name up to the first
dot (`source_file.py` line 85). -/
def moduleOf (p : String) : String := topName (baseName p)

/-! ## Declaration-node model

A Python `ast` statement is modelled by the fields the engine reads: an
identity tag `nid` standing for CPython object identity (`id(node)`), the
alias/definition names, and `refs`, the list of identifiers `n.id` for the
`ast.Name` nodes found by `ast.walk` inside the statement (for assignments
this includes the target names, as `ast.walk` yields them too). -/

inductive PyNode where
  | imp (nid : Nat) (names : List String)
  | impFrom (nid : Nat) (md : String) (names : List String) (level : Nat)
  | cls (nid : Nat) (name : String) (refs : List String)
  | fnDef (nid : Nat) (name : String) (refs : List String)
  | assign (nid : Nat) (targets : List String) (refs : List String)
  | annAssign (nid : Nat) (target : String) (refs : List String)
  | exprStmt (nid : Nat) (refs : List String)
deriving DecidableEq

/-- The declaration kinds the engine buckets statements under (the keys
`ast.Import`, `ast.ImportFrom`, `ast.ClassDef`, ... of the code-tree dict). -/
inductive Kind where
  | imp | impFrom | cls | fnDef | assign | annAssign | exprStmt
deriving DecidableEq

def kindOf : PyNode → Kind
  | .imp .. => .imp
  | .impFrom .. => .impFrom
  | .cls .. => .cls
  | .fnDef .. => .fnDef
  | .assign .. => .assign
  | .annAssign .. => .annAssign
  | .exprStmt .. => .exprStmt

def nidOf : PyNode → Nat
  | .imp n .. => n
  | .impFrom n .. => n
  | .cls n .. => n
  | .fnDef n .. => n
  | .assign n .. => n
  | .annAssign n .. => n
  | .exprStmt n .. => n

/-- The `ast.Name` identifiers walked inside a node: import statements
contain none (aliases are plain strings, not `Name` nodes). -/
def refsOf : PyNode → List String
  | .imp .. => []
  | .impFrom .. => []
  | .cls _ _ r => r
  | .fnDef _ _ r => r
  | .assign _ _ r => r
  | .annAssign _ _ r => r
  | .exprStmt _ r => r

/-- The `.name` attribute of a class/function definition. -/
def nodeName : PyNode → String
  | .cls _ n _ => n
  | .fnDef _ n _ => n
  | _ => ""

/-- A code tree: the dict mapping declaration kind to its node list, as an
insertion-ordered association list (Python 3.7 dict semantics). -/
abbrev CodeTree := List (Kind × List PyNode)

def lookupK (k : Kind) : CodeTree → Option (List PyNode)
  | [] => none
  | kv :: rest => if kv.1 = k then some kv.2 else lookupK k rest

/-- Model of `get_elements_by_type` (`ast_helper.py` lines 648-666): on a
`KeyError` the function stores an empty list under the kind and retries, so
a missing kind comes back as `[]` with the empty bucket retained in the
dict. -/
def get_elements_by_type (k : Kind) (tr : CodeTree) : List PyNode × CodeTree :=
  match lookupK k tr with
  | some l => (l, tr)
  | none => ([], tr ++ [(k, [])])

/-- Reading a bucket without recording the empty-bucket insertion of
`get_elements_by_type`.  The engine embedding uses this: the inserted empty
bucket changes no later membership test, no filter and no saved output
(rendering skips empty buckets), so it is observationally irrelevant there;
claim C8's embedding models the insertion itself via `get_elements_by_type`. -/
def readBucket (k : Kind) (tr : CodeTree) : List PyNode :=
  (lookupK k tr).getD []

/-- Model of `set_elements_by_type` (`ast_helper.py` lines 669-684): the
bucket is created empty at the end of the dict if missing, then cleared and
refilled in place. -/
def setBucket (k : Kind) (l : List PyNode) (tr : CodeTree) : CodeTree :=
  if (lookupK k tr).isSome then
    tr.map (fun kv => if kv.1 = k then (k, l) else kv)
  else tr ++ [(k, l)]

def hasEmptyBucket (tr : CodeTree) : Bool :=
  tr.any (fun kv => kv.2.isEmpty)

/-- All identifiers referenced anywhere in the tree: the set
`all_names` of `get_code_tree_required_imports` (`ast_helper.py` lines
536-541), as a list queried by membership. -/
def allNames (tr : CodeTree) : List String :=
  tr.flatMap (fun kv => kv.2.flatMap refsOf)

/-! ## Dependency resolvers (`ast_helper.py`) -/

/-- Model of `get_class_required_imports` (`ast_helper.py` lines 268-295):
scan the candidates in order; a plain import is appended once per alias
whose top segment is referenced in the class, a from-import once if any
alias name is referenced (`imp.module` truthiness is `md ≠ ""`, standing
for both `None` and the empty string). -/
def get_class_required_imports (c : PyNode) (imports : List PyNode) : List PyNode :=
  imports.flatMap (fun imp =>
    match imp with
    | .imp _ names =>
        (names.filter (fun a => (refsOf c).contains (topName a))).map (fun _ => imp)
    | .impFrom _ md names _ =>
        if md ≠ "" ∧ names.any (fun a => (refsOf c).contains a) then [imp] else []
    | _ => [])

/-- Model of `get_class_required_import_froms` (`ast_helper.py` lines
298-320).  The source iterates a list assumed to hold `ast.ImportFrom`
nodes; other kinds would raise there, and never occur at its call sites. -/
def get_class_required_import_froms (c : PyNode) (ifs : List PyNode) : List PyNode :=
  ifs.filter (fun imp =>
    match imp with
    | .impFrom _ md names _ => md ≠ "" && names.any (fun a => (refsOf c).contains a)
    | _ => false)

/-- Model of `get_class_required_functions` (`ast_helper.py` lines 323-345). -/
def get_class_required_functions (c : PyNode) (fns : List PyNode) : List PyNode :=
  fns.filter (fun f => (refsOf c).contains (nodeName f))

/-- Model of `get_class_required_assigns` (`ast_helper.py` lines 348-373):
an assignment is required when one of its `ast.Name` targets is referenced. -/
def get_class_required_assigns (c : PyNode) (assigns : List PyNode) : List PyNode :=
  assigns.filter (fun a =>
    match a with
    | .assign _ targets _ => targets.any (fun t => (refsOf c).contains t)
    | _ => false)

/-- Model of `get_class_required_ann_assigns` (`ast_helper.py` lines 376-401). -/
def get_class_required_ann_assigns (c : PyNode) (anns : List PyNode) : List PyNode :=
  anns.filter (fun a =>
    match a with
    | .annAssign _ t _ => (refsOf c).contains t
    | _ => false)

/-- The filter inside `get_code_tree_required_imports` (`ast_helper.py`
lines 544-551): which candidate imports enter `required_imports_set`. -/
def selectRequired (tr : CodeTree) (imports : List PyNode) : List PyNode :=
  imports.filter (fun imp =>
    match imp with
    | .imp _ names => names.any (fun a => (allNames tr).contains (topName a))
    | .impFrom _ md names _ => md ≠ "" && names.any (fun a => (allNames tr).contains a)
    | _ => false)

/-- Model of `get_code_tree_required_imports` (`ast_helper.py` lines
519-562).  The source collects the selected candidates into a Python `set`
of objects and returns `list(required_imports_set)`; set iteration order is
determined by object hashes (addresses), not by insertion, and is
unspecified.  `enum` stands for that enumeration: an admissible `enum`
returns some permutation of the distinct selected elements,
`(enum l).Perm l.dedup`. -/
def get_code_tree_required_imports (enum : List PyNode → List PyNode)
    (tr : CodeTree) (imports : List PyNode) : List PyNode :=
  enum (selectRequired tr imports)

/-- `out` is picked from `cands` in candidate order: each output element is
a candidate, consecutive repetitions of the same candidate are allowed, and
relative candidate order is preserved.  This is the order-preservation
property of claim C3. -/
inductive OrderedPick {α : Type} : List α → List α → Prop
  | nil (cands : List α) : OrderedPick [] cands
  | keep {out : List α} (c : α) {cands : List α} :
      OrderedPick out (c :: cands) → OrderedPick (c :: out) (c :: cands)
  | next {out : List α} (c : α) {cands : List α} :
      OrderedPick out cands → OrderedPick out (c :: cands)

/-- A concrete admissible set enumeration: distinct elements in reverse
insertion order.  CPython makes no ordering promise, so this order is a
legitimate behaviour of `list(required_imports_set)`. -/
def enumRev (l : List PyNode) : List PyNode := l.dedup.reverse

/-! ## Cross-file import rewriters (`ast_helper.py` lines 944-1023) -/

/-- The `ImportUpdater.visit_Import`/`visit_ImportFrom` of
`update_class_imports_in_file` (lines 964-976) on one statement. -/
def updClsNode (clsName prevMod newMod : String) : PyNode → PyNode
  | .imp nid names =>
      .imp nid (names.map (fun a => if a = prevMod then newMod else a))
  | .impFrom nid md names lvl =>
      if md = prevMod ∧ names.any (fun a => a = clsName) then
        .impFrom nid newMod names lvl
      else .impFrom nid md names lvl
  | n => n

/-- The `ImportUpdater.visit_Import`/`visit_ImportFrom` of
`update_module_imports_in_file` (lines 1002-1016) on one statement: a
plain import alias is rewritten whenever `alias.name.startswith(previous)`,
with
`alias.name.replace(previous, new, 1)`; a from-import module likewise when
truthy and matching. -/
def updModNode (prevMod newMod : String) : PyNode → PyNode
  | .imp nid names =>
      .imp nid (names.map (fun a =>
        if strStarts a prevMod then strReplaceFirst a prevMod newMod else a))
  | .impFrom nid md names lvl =>
      if md ≠ "" ∧ strStarts md prevMod then
        .impFrom nid (strReplaceFirst md prevMod newMod) names lvl
      else .impFrom nid md names lvl
  | n => n

/-- Model of `update_class_imports_in_file` on a parsed file, given as its
statement list (reading, unparsing and rewriting the file are modelled by
transforming the list). -/
def update_class_imports_in_file (clsName prevMod newMod : String)
    (stmts : List PyNode) : List PyNode :=
  stmts.map (updClsNode clsName prevMod newMod)

/-- Model of `update_module_imports_in_file` on a parsed file, given as its
statement list. -/
def update_module_imports_in_file (prevMod newMod : String)
    (stmts : List PyNode) : List PyNode :=
  stmts.map (updModNode prevMod newMod)

def mapNodes (f : PyNode → PyNode) (tr : CodeTree) : CodeTree :=
  tr.map (fun kv => (kv.1, kv.2.map f))

/-! ## Structural comparator (`code_compare_helper.py`) -/

/-- Model of `ast.dump`: a canonical serialization of a node ignoring its
identity and source position. -/
def dumpNode : PyNode → String
  | .imp _ names => "Import(" ++ String.intercalate "," names ++ ")"
  | .impFrom _ md names lvl =>
      "ImportFrom(" ++ md ++ ";" ++ String.intercalate "," names ++ ";" ++ toString lvl ++ ")"
  | .cls _ n r => "ClassDef(" ++ n ++ ";" ++ String.intercalate "," r ++ ")"
  | .fnDef _ n r => "FunctionDef(" ++ n ++ ";" ++ String.intercalate "," r ++ ")"
  | .assign _ t r =>
      "Assign(" ++ String.intercalate "," t ++ ";" ++ String.intercalate "," r ++ ")"
  | .annAssign _ t r => "AnnAssign(" ++ t ++ ";" ++ String.intercalate "," r ++ ")"
  | .exprStmt _ r => "Expr(" ++ String.intercalate "," r ++ ")"

def sortStrs (l : List String) : List String :=
  l.insertionSort (fun a b => a ≤ b)

/-- The tree comparison of `compare_from_code` (`code_compare_helper.py`
lines 20-33): bucket-count equality, then per-kind presence, cardinality
and sorted-fingerprint equality. -/
def compareTrees (a b : CodeTree) : Bool :=
  if a.length ≠ b.length then false
  else a.all (fun kv =>
    match lookupK kv.1 b with
    | none => false
    | some rl =>
        kv.2.length = rl.length &&
        decide (sortStrs (kv.2.map dumpNode) = sortStrs (rl.map dumpNode)))

/-- Model of `compare_from_code` (`code_compare_helper.py` lines 6-33).
`load` stands for `load_code_code_tree_from_code`: the external parser plus
the deterministic bucketing pass, returning `Except` because `ast.parse`
raises on malformed input and the error is propagated, not swallowed. -/
def compare_from_code (load : String → Except String CodeTree)
    (leftCode rightCode : String) : Except String Bool := do
  let lt ← load leftCode
  let rt ← load rightCode
  pure (compareTrees lt rt)

/-- Model of `compare_codes_from_files` (`code_compare_helper.py` lines
36-51) after both files are read: `left_code == right_code or
compare_from_code(...)`, with Python's short-circuiting `or`, so equal
texts never reach the parser. -/
def compare_codes_from_files (load : String → Except String CodeTree)
    (leftCode rightCode : String) : Except String Bool :=
  if leftCode = rightCode then .ok true
  else compare_from_code load leftCode rightCode

/-! ## `clean_code_tree` (`ast_helper.py` lines 34-117)

For the builder's dedup/elision pass, nodes are modelled with their
identity tag and their nested statement-shaped children; `children` is the
concatenation body ++ handlers ++ finalbody ++ orelse of the sections the
source discovers dynamically (the global `nodes_with_body`/... tables only
memoize which types have each attribute, so their net effect is exactly
this concatenation). -/

inductive RawNode where
  | node (nid : Nat) (kind : Kind) (children : List RawNode)

def RawNode.rnid : RawNode → Nat
  | .node n _ _ => n

abbrev RawTree := List (Kind × List RawNode)

mutual
/-- `add_to_seen_recursively` (`ast_helper.py` lines 49-100): record a
node's identity and, if it was not already seen, the identities of its
nested children. -/
def addSeenNode (seen : List Nat) : RawNode → List Nat
  | .node n _ cs => if n ∈ seen then seen else addSeenList (n :: seen) cs

def addSeenList (seen : List Nat) : List RawNode → List Nat
  | [] => seen
  | c :: cs => addSeenList (addSeenNode seen c) cs
end

/-- `add_nodes_to_new_tree` for one bucket (`ast_helper.py` lines 102-111):
keep a node if its identity is unseen, then mark it and its children seen. -/
def cleanBucket (seen : List Nat) : List RawNode → List RawNode × List Nat
  | [] => ([], seen)
  | n :: ns =>
    if n.rnid ∈ seen then cleanBucket seen ns
    else
      let p := cleanBucket (addSeenNode seen n) ns
      (n :: p.1, p.2)

def cleanBuckets (seen : List Nat) : RawTree → RawTree
  | [] => []
  | kv :: rest =>
    let p := cleanBucket seen kv.2
    (kv.1, p.1) :: cleanBuckets p.2 rest

/-- Model of `clean_code_tree` (`ast_helper.py` lines 34-117): walk the
buckets in dict order suppressing duplicate and nested node identities,
then drop the empty buckets (line 116). -/
def clean_code_tree (tr : RawTree) : RawTree :=
  (cleanBuckets [] tr).filter (fun kv => !kv.2.isEmpty)

/-! ## Class extraction engine (`source_file.py`) -/

/-- The file system: path to parsed content, as an association list.  File
contents are represented by their code tree; writing a file stores the tree
its text parses back to (the external `render`/`format`/`parse` round trip
of spec section 6 is assumed faithful). -/
abbrev FileSys := List (String × CodeTree)

def lookupFS (p : String) : FileSys → Option CodeTree
  | [] => none
  | kv :: rest => if kv.1 = p then some kv.2 else lookupFS p rest

def fsHas (p : String) (fs : FileSys) : Bool := (lookupFS p fs).isSome

def writeFS (p : String) (t : CodeTree) : FileSys → FileSys
  | [] => [(p, t)]
  | kv :: rest => if kv.1 = p then (p, t) :: rest else kv :: writeFS p t rest

def removeFS (p : String) (fs : FileSys) : FileSys :=
  fs.filter (fun kv => decide (kv.1 ≠ p))

/-- The statement order `generate_code_from_tree` renders a tree in
(`ast_helper.py` lines 130-150): the `Import`, `ImportFrom` and `ClassDef`
buckets first, then the remaining buckets in dict order.  Note a bucket is
rendered wholesale: a node a mutation placed under a foreign kind is
rendered with its bucket. -/
def renderNodes (tr : CodeTree) : List PyNode :=
  readBucket .imp tr ++ readBucket .impFrom tr ++ readBucket .cls tr ++
    (tr.filter (fun kv => decide (kv.1 ≠ Kind.imp) && decide (kv.1 ≠ Kind.impFrom) &&
      decide (kv.1 ≠ Kind.cls))).flatMap (fun kv => kv.2)

def addToBucket (tr : CodeTree) (n : PyNode) : CodeTree :=
  if (lookupK (kindOf n) tr).isSome then
    tr.map (fun kv => if kv.1 = kindOf n then (kv.1, kv.2 ++ [n]) else kv)
  else tr ++ [(kindOf n, [n])]

/-- Re-bucket a statement sequence by kind in first-occurrence order: the
effect of `load_code_code_tree_from_code` (`ast_helper.py` lines 606-630)
on a well-formed rendered file. -/
def bucketize (ns : List PyNode) : CodeTree :=
  ns.foldl addToBucket []

/-- The save → text → reload round trip for a tree: render in the order of
`generate_code_from_tree` (empty buckets vanish) and re-bucket each
statement under its own kind. -/
def saveTree (tr : CodeTree) : CodeTree :=
  bucketize (renderNodes tr)

/-- `create_import_from` (`ast_helper.py` lines 16-31): a synthesized
`from module import name` node with default level 1 and a fresh identity. -/
def create_import_from (nid : Nat) (moduleName clsName : String) : PyNode :=
  .impFrom nid moduleName [clsName] 1

/-- Model of `remove_class_from_code_tree` (`ast_helper.py` lines 565-603):
drop the class node (and everything `ast.walk` reaches inside it — absent
from the flat buckets of a cleaned tree) from every bucket, by identity. -/
def remove_class_from_code_tree (c : PyNode) (tr : CodeTree) : CodeTree :=
  tr.map (fun kv => (kv.1, kv.2.filter (fun n => decide (nidOf n ≠ nidOf c))))

/-- `clean_code_tree` applied to the flat engine-level tree built by
`generate_code_tree_for_class`: no bucketed node nests another bucketed
node there, so the pass reduces to identity-based dedup across buckets in
dict order plus dropping empty buckets. -/
def cleanNodesBucket (seen : List Nat) : List PyNode → List PyNode × List Nat
  | [] => ([], seen)
  | n :: ns =>
    if nidOf n ∈ seen then cleanNodesBucket seen ns
    else
      let p := cleanNodesBucket (nidOf n :: seen) ns
      (n :: p.1, p.2)

def cleanNodesBuckets (seen : List Nat) : CodeTree → CodeTree
  | [] => []
  | kv :: rest =>
    let p := cleanNodesBucket seen kv.2
    (kv.1, p.1) :: cleanNodesBuckets p.2 rest

def cleanNodeTree (tr : CodeTree) : CodeTree :=
  (cleanNodesBuckets [] tr).filter (fun kv => !kv.2.isEmpty)

/-- Model of `generate_code_tree_for_class` (`ast_helper.py` lines
155-213): the new file's tree, holding the class, the imports it requires,
and one synthesized `from target import name` per required sibling
function/assignment target.  Returns the tree together with the next fresh
identity tag. -/
def generate_code_tree_for_class (c : PyNode) (tr : CodeTree)
    (targetModuleName : String) (nid : Nat) : CodeTree × Nat :=
  let reqImps := get_class_required_imports c (readBucket .imp tr)
  let reqIfs := get_class_required_import_froms c (readBucket .impFrom tr)
  let reqFns := get_class_required_functions c (readBucket .fnDef tr)
  let reqAssigns := get_class_required_assigns c (readBucket .assign tr)
  let reqAnns := get_class_required_ann_assigns c (readBucket .annAssign tr)
  let fnImps := reqFns.map (fun f => nodeName f)
  let assignImps := reqAssigns.flatMap (fun a =>
    match a with
    | .assign _ targets _ => targets
    | _ => [])
  let annImps := reqAnns.flatMap (fun a =>
    match a with
    | .annAssign _ t _ => [t]
    | _ => [])
  let synthNames := fnImps ++ assignImps ++ annImps
  let synth := (List.range synthNames.length).zip synthNames |>.map
    (fun p => create_import_from (nid + p.1) targetModuleName p.2)
  let tree : CodeTree :=
    [(Kind.imp, reqImps), (Kind.impFrom, reqIfs ++ synth), (Kind.cls, [c])]
  (cleanNodeTree (tree.filter (fun kv => !kv.2.isEmpty)), nid + synthNames.length)

/-- Model of `find_class_dependent_files` (`code_search_helper.py` lines
6-47): the paths of the other files whose imports mention `clsName` (all
stored files are parsed content, so no parse failure occurs); the final
`list(set(...))` on paths is modelled as dedup in insertion order. -/
def find_class_dependent_files (clsName curPath : String) (fs : FileSys) : List String :=
  ((fs.filter (fun kv =>
      decide (kv.1 ≠ curPath) &&
      (kv.2.flatMap (fun b => b.2)).any (fun n =>
        match n with
        | .imp _ names =>
            names.any (fun a => a = clsName || topName a = clsName)
        | .impFrom _ _ names _ =>
            names.any (fun a => a = clsName || topName a = clsName)
        | _ => false))).map (fun kv => kv.1)).dedup

/-- Model of `find_module_dependent_files` (`code_search_helper.py` lines
50-90).  Its reference test reads
`isinstance(node, ast.ImportFrom) and node.module == module_name or
any(alias.name.startswith(module_name + ".") for alias in node.names)`:
by Python operator precedence the `any(...)` operand is evaluated for
every walked node whose first disjunct is false, and building the
generator evaluates `node.names` eagerly.  `ast.walk` yields the
`ast.Module` node first, which has no `names` attribute, so scanning any
parseable file raises `AttributeError` (only the read+parse is inside the
`try`).  Hence: no other file, empty result; any other file, the error. -/
def find_module_dependent_files (curPath : String) (fs : FileSys) :
    Except String (List String) :=
  if (fs.filter (fun kv => decide (kv.1 ≠ curPath))).isEmpty then .ok []
  else .error "AttributeError: object has no attribute names"

/-- Model of `SourceFile.move_to_module` (`source_file.py` lines 236-266).
The module is identified by its directory and module name
(`path = pathOf dir modName`).  Returns the Python result, the module's
new name, and the file system.  The `target_module_name` parameter is
shadowed by the `generate_module_name(previous_module)` reassignment at
line 242 before any use, exactly as in the source. -/
def move_to_module (dir modName : String) (fs : FileSys)
    (target_module_name : String) : Except String (Bool × String × FileSys) :=
  let path := pathOf dir modName
  if !fsHas path fs then .ok (false, modName, fs)
  else
    let previousModule := modName
    let target_module_name := to_snake_case previousModule
    if previousModule = target_module_name then .ok (false, modName, fs)
    else
      let tree := (lookupFS path fs).getD []
      let fs1 := removeFS path fs
      match find_module_dependent_files path fs1 with
      | .error e => .error e
      | .ok deps =>
        let newPath :=
          ⟨pyReplace path.data (previousModule ++ ".py").data
            (target_module_name ++ ".py").data⟩
        let fs2 := writeFS newPath (saveTree tree) fs1
        let newMod := moduleOf newPath
        let fs3 := deps.foldl (fun acc p =>
          match lookupFS p acc with
          | some t => writeFS p (mapNodes (updModNode previousModule newMod) t) acc
          | none => acc) fs2
        .ok (true, newMod, fs3)

/-- One pass of the class-extraction loop of `SourceFile.refactor`
(`source_file.py` lines 280-323), fuelled: every iteration either advances
the cursor or removes a class, so `(classes.length - i)` at entry bounds
the iterations. -/
def extractLoop (enum : List PyNode → List PyNode) :
    Nat → String → String → CodeTree → FileSys → Nat → Nat →
      CodeTree × FileSys × Nat
  | 0, _, _, tree, fs, nid, _ => (tree, fs, nid)
  | fuel + 1, dir, selfMod, tree, fs, nid, i =>
    let classes := readBucket .cls tree
    if h : i < classes.length then
      let c := classes.get ⟨i, h⟩
      let className := nodeName c
      let m := to_snake_case className
      let target := pathOf dir m
      let selfPath := pathOf dir selfMod
      if selfPath = target then
        extractLoop enum fuel dir selfMod tree fs nid (i + 1)
      else if selfPath ≠ target ∧ strLower selfPath = strLower target then
        extractLoop enum fuel dir selfMod tree fs nid (i + 1)
      else
        let p := generate_code_tree_for_class c tree m nid
        let fs1 := writeFS target (saveTree p.1) fs
        let newImp := create_import_from p.2 m className
        let tree1 := setBucket .imp (newImp :: readBucket .imp tree) tree
        let tree2 := remove_class_from_code_tree c tree1
        let deps := find_class_dependent_files m selfPath fs1
        let fs2 := deps.foldl (fun acc q =>
          match lookupFS q acc with
          | some t =>
              writeFS q (mapNodes (updClsNode className selfMod m) t) acc
          | none => acc) fs1
        extractLoop enum fuel dir selfMod tree2 fs2 (p.2 + 1) i
    else (tree, fs, nid)

/-- Model of `SourceFile.refactor` (`source_file.py` lines 268-331): rename
the module to its normalized name, extract every class into its own file,
then reconcile the module's imports and save.  `enum` is the set
enumeration of `get_code_tree_required_imports`; `nid` supplies fresh node
identities.  Errors raised mid-way (the `AttributeError` of
`find_module_dependent_files`) propagate. -/
def refactor (enum : List PyNode → List PyNode) (dir modName : String)
    (fs : FileSys) (nid : Nat) : Except String (FileSys × Nat) :=
  let path := pathOf dir modName
  if !fsHas path fs then .ok (fs, nid)
  else
    let moduleName := to_snake_case modName
    match move_to_module dir modName fs moduleName with
    | .error e => .error e
    | .ok (_, m1, fs1) =>
      let selfPath := pathOf dir m1
      let tree0 := (lookupFS selfPath fs1).getD []
      let fuel := (readBucket .cls tree0).length
      let q := extractLoop enum fuel dir m1 tree0 fs1 nid 0
      let tree1 := q.1
      let req := get_code_tree_required_imports enum tree1
        (readBucket .imp tree1 ++ readBucket .impFrom tree1)
      let tree2 :=
        setBucket .impFrom (req.filter (fun n => kindOf n = Kind.impFrom))
          (setBucket .imp (req.filter (fun n => kindOf n = Kind.imp)) tree1)
      let fs3 := writeFS selfPath (saveTree tree2) q.2.1
      .ok (fs3, q.2.2)

/-! ## Specification predicate for normalizer outputs -/

/-- The shape of every word `to_snake_case` emits: nonempty, and either all
digits or lowercase-led over lowercase/digit characters.  Joined with
underscores, such words are exactly the normalizer's fixed points. -/
def goodWord : List Char → Prop
  | [] => False
  | c :: cs =>
    (pyIsDigit c = true ∧ ∀ a ∈ cs, pyIsDigit a = true) ∨
    (pyIsLower c = true ∧ ∀ a ∈ cs, lowerDigit a = true)

end PyRefactor

namespace PyRefactor

/-! ## Character-class lemmas -/

theorem pyIsAlnum_not_space {c : Char} (h : pyIsAlnum c = true) :
    pyIsSpace c = false := by
  rw [Bool.eq_false_iff]
  intro hs
  simp only [pyIsAlnum, pyIsUpper, pyIsLower, pyIsDigit, pyIsSpace, Bool.or_eq_true,
    Bool.and_eq_true, decide_eq_true_eq] at h hs
  omega

theorem pyIsAlnum_ne_underscore {c : Char} (h : pyIsAlnum c = true) : c ≠ '_' := by
  intro he
  subst he
  simp [pyIsAlnum, pyIsUpper, pyIsLower, pyIsDigit] at h

theorem pyIsAlnum_not_hs {c : Char} (h : pyIsAlnum c = true) : isHS c = false := by
  rw [Bool.eq_false_iff]
  intro hs
  rw [isHS, Bool.or_eq_true] at hs
  rcases hs with hs | hs
  · rw [decide_eq_true_eq] at hs
    subst hs
    simp [pyIsAlnum, pyIsUpper, pyIsLower, pyIsDigit] at h
  · rw [pyIsAlnum_not_space h] at hs
    exact Bool.false_ne_true hs

theorem pyIsDigit_alnum {c : Char} (h : pyIsDigit c = true) : pyIsAlnum c = true := by
  simp [pyIsAlnum, h]

theorem pyIsLower_alnum {c : Char} (h : pyIsLower c = true) : pyIsAlnum c = true := by
  simp [pyIsAlnum, h]

theorem pyIsUpper_alnum {c : Char} (h : pyIsUpper c = true) : pyIsAlnum c = true := by
  simp [pyIsAlnum, h]

theorem lowerDigit_alnum {c : Char} (h : lowerDigit c = true) : pyIsAlnum c = true := by
  rw [lowerDigit, Bool.or_eq_true] at h
  rcases h with h | h
  · exact pyIsLower_alnum h
  · exact pyIsDigit_alnum h

theorem upperDigit_alnum {c : Char} (h : upperDigit c = true) : pyIsAlnum c = true := by
  rw [upperDigit, Bool.or_eq_true] at h
  rcases h with h | h
  · exact pyIsUpper_alnum h
  · exact pyIsDigit_alnum h

theorem upperDigit_not_lower {c : Char} (h : upperDigit c = true) :
    pyIsLower c = false := by
  rw [Bool.eq_false_iff]
  intro hl
  simp only [upperDigit, pyIsUpper, pyIsLower, pyIsDigit, Bool.or_eq_true,
    Bool.and_eq_true, decide_eq_true_eq] at h hl
  omega

theorem pyIsWord_of_alnum {c : Char} (h : pyIsAlnum c = true) : pyIsWord c = true := by
  simp [pyIsWord, h]

theorem pyIsWord_cases {c : Char} (h : pyIsWord c = true) :
    pyIsAlnum c = true ∨ c = '_' := by
  rw [pyIsWord, Bool.or_eq_true] at h
  rcases h with h | h
  · exact Or.inl h
  · exact Or.inr (by rwa [decide_eq_true_eq] at h)

theorem pyIsAlnum_cases {c : Char} (h : pyIsAlnum c = true) :
    pyIsDigit c = true ∨ pyIsLower c = true ∨ pyIsUpper c = true := by
  rw [pyIsAlnum, Bool.or_eq_true, Bool.or_eq_true] at h
  tauto

theorem toNat_pyToLower_upper {c : Char} (h : pyIsUpper c = true) :
    (pyToLower c).toNat = c.toNat + 32 := by
  have hb := h
  simp only [pyIsUpper, Bool.and_eq_true, decide_eq_true_eq] at hb
  have hv : Nat.isValidChar (c.toNat + 32) := Or.inl (by omega)
  rw [pyToLower, if_pos h, Char.ofNat, dif_pos hv]
  rfl

theorem pyToLower_of_not_upper {c : Char} (h : pyIsUpper c = false) :
    pyToLower c = c := by
  rw [pyToLower, if_neg (by rw [h]; exact Bool.false_ne_true)]

theorem pyToLower_of_lowerDigit {c : Char} (h : lowerDigit c = true) :
    pyToLower c = c := by
  apply pyToLower_of_not_upper
  rw [Bool.eq_false_iff]
  intro hu
  simp only [lowerDigit, pyIsUpper, pyIsLower, pyIsDigit, Bool.or_eq_true,
    Bool.and_eq_true, decide_eq_true_eq] at h hu
  omega

theorem lowerDigit_pyToLower_of_upperDigit {c : Char} (h : upperDigit c = true) :
    lowerDigit (pyToLower c) = true := by
  rw [upperDigit, Bool.or_eq_true] at h
  rcases h with h | h
  · have := toNat_pyToLower_upper h
    simp only [pyIsUpper, Bool.and_eq_true, decide_eq_true_eq] at h
    simp only [lowerDigit, pyIsLower, pyIsDigit, Bool.or_eq_true, Bool.and_eq_true,
      decide_eq_true_eq, this]
    omega
  · have hd : pyIsUpper c = false := by
      rw [Bool.eq_false_iff]
      intro hu
      simp only [pyIsUpper, pyIsDigit, Bool.and_eq_true, decide_eq_true_eq] at h hu
      omega
    rw [pyToLower_of_not_upper hd, lowerDigit, h, Bool.or_true]

theorem lowerDigit_pyToLower_of_alnum {c : Char} (h : pyIsAlnum c = true) :
    lowerDigit (pyToLower c) = true := by
  rcases pyIsAlnum_cases h with h | h | h
  · exact lowerDigit_pyToLower_of_upperDigit (by rw [upperDigit, h, Bool.or_true])
  · rw [pyToLower_of_lowerDigit (by rw [lowerDigit, h, Bool.true_or]),
      lowerDigit, h, Bool.true_or]
  · exact lowerDigit_pyToLower_of_upperDigit (by rw [upperDigit, h, Bool.true_or])

theorem lowerDigit_not_space {c : Char} (h : lowerDigit c = true) :
    pyIsSpace c = false :=
  pyIsAlnum_not_space (lowerDigit_alnum h)

theorem lowerDigit_not_hs {c : Char} (h : lowerDigit c = true) : isHS c = false :=
  pyIsAlnum_not_hs (lowerDigit_alnum h)

theorem lowerDigit_ne_underscore {c : Char} (h : lowerDigit c = true) : c ≠ '_' :=
  pyIsAlnum_ne_underscore (lowerDigit_alnum h)

end PyRefactor

namespace PyRefactor

/-! ## List scanning lemmas -/

theorem takeWhile_all {p : Char → Bool} : ∀ {l : List Char},
    (∀ c ∈ l, p c = true) → l.takeWhile p = l
  | [], _ => rfl
  | c :: l, h => by
    rw [List.takeWhile_cons, if_pos (h c (List.mem_cons_self c l))]
    rw [takeWhile_all (fun x hx => h x (List.mem_cons_of_mem c hx))]

theorem dropWhile_all {p : Char → Bool} : ∀ {l : List Char},
    (∀ c ∈ l, p c = true) → l.dropWhile p = []
  | [], _ => rfl
  | c :: l, h => by
    rw [List.dropWhile_cons, if_pos (h c (List.mem_cons_self c l))]
    exact dropWhile_all (fun x hx => h x (List.mem_cons_of_mem c hx))

theorem takeWhile_all_append {p : Char → Bool} {c : Char} {l₂ : List Char} :
    ∀ {l₁ : List Char}, (∀ a ∈ l₁, p a = true) → p c = false →
      (l₁ ++ c :: l₂).takeWhile p = l₁
  | [], _, hc => by
    rw [List.nil_append, List.takeWhile_cons, if_neg (by rw [hc]; exact Bool.false_ne_true)]
  | a :: l₁, h, hc => by
    rw [List.cons_append, List.takeWhile_cons, if_pos (h a (List.mem_cons_self a l₁))]
    rw [takeWhile_all_append (fun x hx => h x (List.mem_cons_of_mem a hx)) hc]

theorem dropWhile_all_append {p : Char → Bool} {c : Char} {l₂ : List Char} :
    ∀ {l₁ : List Char}, (∀ a ∈ l₁, p a = true) → p c = false →
      (l₁ ++ c :: l₂).dropWhile p = c :: l₂
  | [], _, hc => by
    rw [List.nil_append, List.dropWhile_cons, if_neg (by rw [hc]; exact Bool.false_ne_true)]
  | a :: l₁, h, hc => by
    rw [List.cons_append, List.dropWhile_cons, if_pos (h a (List.mem_cons_self a l₁))]
    exact dropWhile_all_append (fun x hx => h x (List.mem_cons_of_mem a hx)) hc

theorem head_dropWhile {p : Char → Bool} : ∀ {l : List Char} {c : Char} {rest : List Char},
    l.dropWhile p = c :: rest → p c = false
  | [], _, _, h => by simp at h
  | a :: l, c, rest, h => by
    rw [List.dropWhile_cons] at h
    by_cases hp : p a = true
    · rw [if_pos hp] at h
      exact head_dropWhile h
    · rw [if_neg hp] at h
      cases h
      exact Bool.eq_false_iff.mpr hp

theorem mem_takeWhile {p : Char → Bool} : ∀ {l : List Char} {c : Char},
    c ∈ l.takeWhile p → p c = true
  | [], _, h => by simp at h
  | a :: l, c, h => by
    rw [List.takeWhile_cons] at h
    by_cases hp : p a = true
    · rw [if_pos hp] at h
      rcases List.mem_cons.mp h with h | h
      · subst h; exact hp
      · exact mem_takeWhile h
    · rw [if_neg hp] at h
      simp at h

/-! ## `pyReplace` lemmas -/

theorem leadsWith_append : ∀ {old s : List Char}, leadsWith old s = true →
    old ++ s.drop old.length = s
  | [], s, _ => by simp
  | a :: old, [], h => by simp [leadsWith] at h
  | a :: old, b :: s, h => by
    rw [leadsWith, Bool.and_eq_true, decide_eq_true_eq] at h
    rw [h.1, List.length_cons, List.cons_append, List.drop_succ_cons]
    rw [leadsWith_append h.2]

theorem leadsWith_self_append : ∀ (l x : List Char), leadsWith l (l ++ x) = true
  | [], _ => rfl
  | a :: l, x => by
    rw [List.cons_append, leadsWith, Bool.and_eq_true, decide_eq_true_eq]
    exact ⟨rfl, leadsWith_self_append l x⟩

theorem leadsWith_false_of_head_ne {h : Char} {tl : List Char} {c : Char}
    {rest : List Char} (hne : h ≠ c) : leadsWith (h :: tl) (c :: rest) = false := by
  rw [leadsWith, Bool.and_eq_false_iff]
  exact Or.inl (by rw [decide_eq_false_iff_not]; exact hne)

/-- Replacing a pattern by itself never changes a string (for any fuel). -/
theorem pyReplaceAux_self (old : List Char) : ∀ (fuel : Nat) (s : List Char),
    pyReplaceAux fuel old old s = s
  | 0, _ => rfl
  | fuel + 1, [] => rfl
  | fuel + 1, c :: rest => by
    rw [pyReplaceAux]
    by_cases hl : leadsWith old (c :: rest) = true
    · rw [if_pos hl, pyReplaceAux_self old fuel]
      exact leadsWith_append hl
    · rw [if_neg hl, pyReplaceAux_self old fuel]

theorem pyReplace_self (s old : List Char) : pyReplace s old old = s :=
  pyReplaceAux_self old s.length s

theorem pyReplaceAux_no_match {h : Char} {tl conv : List Char}
    (halnum : pyIsAlnum h = true) :
    ∀ (suf : List Char) (fuel : Nat), (∀ c ∈ suf, pyIsAlnum c = false) →
      pyReplaceAux fuel (h :: tl) conv suf = suf
  | [], 0, _ => rfl
  | [], _ + 1, _ => rfl
  | _ :: _, 0, _ => rfl
  | c :: rest, fuel + 1, hsuf => by
    have hne : h ≠ c := by
      intro he
      rw [he, hsuf c (List.mem_cons_self c rest)] at halnum
      exact Bool.false_ne_true halnum
    rw [pyReplaceAux, if_neg (by rw [leadsWith_false_of_head_ne hne]; exact Bool.false_ne_true)]
    rw [pyReplaceAux_no_match halnum rest fuel
      (fun x hx => hsuf x (List.mem_cons_of_mem c hx))]

/-- Replacing the inner span of a punctuation-wrapped string: the pattern
begins with an alphanumeric character while wrapper characters are not
alphanumeric, so the single occurrence at the wrapper boundary is replaced. -/
theorem pyReplaceAux_wrapped {h : Char} {tl conv suf : List Char}
    (halnum : pyIsAlnum h = true) (hsuf : ∀ c ∈ suf, pyIsAlnum c = false) :
    ∀ (pre : List Char) (fuel : Nat), (∀ c ∈ pre, pyIsAlnum c = false) →
      pre.length < fuel →
      pyReplaceAux fuel (h :: tl) conv (pre ++ (h :: tl) ++ suf) = pre ++ conv ++ suf
  | [], fuel + 1, _, _ => by
    rw [List.nil_append, List.nil_append]
    have hs : (h :: tl) ++ suf = h :: (tl ++ suf) := rfl
    rw [hs, pyReplaceAux,
      if_pos (show leadsWith (h :: tl) (h :: (tl ++ suf)) = true from
        leadsWith_self_append (h :: tl) suf)]
    show conv ++ pyReplaceAux fuel (h :: tl) conv (((h :: tl) ++ suf).drop (h :: tl).length)
      = conv ++ suf
    rw [List.drop_left, pyReplaceAux_no_match halnum suf fuel hsuf]
  | p :: pre, fuel + 1, hpre, hf => by
    have hne : h ≠ p := by
      intro he
      rw [he, hpre p (List.mem_cons_self p pre)] at halnum
      exact Bool.false_ne_true halnum
    rw [List.cons_append, List.cons_append, pyReplaceAux,
      if_neg (by rw [leadsWith_false_of_head_ne hne]; exact Bool.false_ne_true)]
    rw [pyReplaceAux_wrapped halnum hsuf pre fuel
      (fun x hx => hpre x (List.mem_cons_of_mem p hx)) (Nat.lt_of_succ_lt_succ hf)]
    rw [List.cons_append, List.cons_append]

end PyRefactor

namespace PyRefactor

/-! ## `pyStrip` lemmas -/

theorem dropWhile_eq_self_of_head {p : Char → Bool} {l : List Char}
    (h : ∀ c, l.head? = some c → p c = false) : l.dropWhile p = l := by
  cases l with
  | nil => rfl
  | cons c rest =>
    rw [List.dropWhile_cons,
      if_neg (by rw [h c rfl]; exact Bool.false_ne_true)]

theorem pyStrip_eq_self {l : List Char}
    (h1 : ∀ c, l.head? = some c → pyIsSpace c = false)
    (h2 : ∀ c, l.getLast? = some c → pyIsSpace c = false) : pyStrip l = l := by
  rw [pyStrip, dropWhile_eq_self_of_head h1,
    dropWhile_eq_self_of_head (fun c hc => h2 c (by rwa [List.head?_reverse] at hc)),
    List.reverse_reverse]

theorem pyStrip_getLast_not_space {l : List Char} {c : Char}
    (h : (pyStrip l).getLast? = some c) : pyIsSpace c = false := by
  rw [pyStrip, List.getLast?_reverse] at h
  cases hz : ((l.dropWhile pyIsSpace).reverse.dropWhile pyIsSpace) with
  | nil => rw [hz] at h; exact absurd h (by simp)
  | cons d rest =>
    rw [hz] at h
    cases h
    exact head_dropWhile hz

theorem pyStrip_head_not_space {l : List Char} {c : Char}
    (h : (pyStrip l).head? = some c) : pyIsSpace c = false := by
  rw [pyStrip, List.head?_reverse] at h
  obtain ⟨w, hw⟩ := List.dropWhile_suffix (l := (l.dropWhile pyIsSpace).reverse)
    (p := pyIsSpace)
  have hgl : ((l.dropWhile pyIsSpace).reverse).getLast? = some c := by
    rw [← hw, List.getLast?_append, h]
    rfl
  rw [List.getLast?_reverse] at hgl
  cases hx : l.dropWhile pyIsSpace with
  | nil => rw [hx] at hgl; exact absurd hgl (by simp)
  | cons d rest =>
    rw [hx] at hgl
    rw [List.head?_cons] at hgl
    cases hgl
    exact head_dropWhile hx

theorem pyStrip_nil_of_all_space {l : List Char}
    (h : ∀ c ∈ l, pyIsSpace c = true) : pyStrip l = [] := by
  rw [pyStrip, dropWhile_all h]
  rfl

end PyRefactor

namespace PyRefactor

/-! ## Tokenizer lemmas -/

theorem backOffRev_append : ∀ (rt r : List Char),
    (backOffRev rt r).1.reverse ++ (backOffRev rt r).2 = rt.reverse ++ r
  | [], r => rfl
  | t :: ts, [] => by simp [backOffRev]
  | t :: ts, a :: rs => by
    rw [backOffRev]
    by_cases ha : pyIsLower a = true
    · rw [if_pos ha, backOffRev_append ts (t :: a :: rs), List.reverse_cons,
        List.append_assoc, List.singleton_append]
    · rw [if_neg ha]

theorem backOff_append (tok rest : List Char) :
    (backOff tok rest).1 ++ (backOff tok rest).2 = tok ++ rest := by
  rw [backOff]
  have h := backOffRev_append tok.reverse rest
  rwa [List.reverse_reverse] at h

theorem backOff_char {run : List Char} {t : Char}
    (hall : ∀ c ∈ run, upperDigit c = true) (hgl : run.getLast? = some t)
    (a : Char) (rest : List Char) :
    backOff run (a :: rest) =
      if pyIsLower a = true then (run.dropLast, t :: a :: rest)
      else (run, a :: rest) := by
  have hrev : run.reverse.head? = some t := by rw [List.head?_reverse, hgl]
  cases hr : run.reverse with
  | nil => rw [hr] at hrev; exact absurd hrev (by simp)
  | cons t0 ts =>
    rw [hr, List.head?_cons] at hrev
    have ht0 : t0 = t := by injection hrev
    subst ht0
    have hrun : run = ts.reverse ++ [t0] := by
      have := congrArg List.reverse hr
      rwa [List.reverse_reverse, List.reverse_cons] at this
    rw [backOff, hr, backOffRev]
    by_cases ha : pyIsLower a = true
    · rw [if_pos ha, if_pos ha]
      have ht : pyIsLower t0 = false := upperDigit_not_lower
        (hall t0 (by rw [hrun]; exact List.mem_append_right _ (List.mem_singleton_self t0)))
      cases ts with
      | nil =>
        rw [backOffRev]
        have hd : run.dropLast = [] := by rw [hrun]; rfl
        rw [hd]
        rfl
      | cons t2 ts' =>
        rw [backOffRev, if_neg (by rw [ht]; exact Bool.false_ne_true)]
        have hd : run.dropLast = (t2 :: ts').reverse := by
          rw [hrun, List.dropLast_concat]
        rw [hd]
    · rw [if_neg ha, if_neg ha]
      have hrr : (t0 :: ts).reverse = run := by rw [← hr, List.reverse_reverse]
      rw [hrr]

theorem splitTok_append : ∀ (s : List Char), (splitTok s).1 ++ (splitTok s).2 = s
  | [] => rfl
  | c :: cs => by
    rw [splitTok]
    by_cases h1 : pyIsDigit c = true
    · rw [if_pos h1]
      exact List.takeWhile_append_dropWhile _ _
    · rw [if_neg h1]
      by_cases h2 : pyIsLower c = true
      · rw [if_pos h2]
        exact List.takeWhile_append_dropWhile _ _
      · rw [if_neg h2]
        by_cases h3 : pyIsUpper c = true
        · rw [if_pos h3]
          by_cases h4 : (1 < ((c :: cs).takeWhile upperDigit).length &&
              !((c :: cs).dropWhile upperDigit).isEmpty) = true
          · rw [if_pos h4]
            rw [backOff_append, List.takeWhile_append_dropWhile]
          · rw [if_neg h4]
            show ((c :: cs).takeWhile upperDigit ++ _) ++ _ = c :: cs
            rw [List.append_assoc, List.takeWhile_append_dropWhile,
              List.takeWhile_append_dropWhile]
        · rw [if_neg h3]
          rfl

theorem splitTok_tok_cons {c : Char} (cs : List Char) (hc : pyIsAlnum c = true) :
    ∃ w, (splitTok (c :: cs)).1 = c :: w := by
  rw [splitTok]
  by_cases h1 : pyIsDigit c = true
  · rw [if_pos h1, List.takeWhile_cons, if_pos h1]
    exact ⟨_, rfl⟩
  · rw [if_neg h1]
    by_cases h2 : pyIsLower c = true
    · rw [if_pos h2, List.takeWhile_cons, if_pos (by rw [lowerDigit, h2, Bool.true_or])]
      exact ⟨_, rfl⟩
    · rw [if_neg h2]
      have h3 : pyIsUpper c = true := by
        rcases pyIsAlnum_cases hc with h | h | h
        · exact absurd h h1
        · exact absurd h h2
        · exact h
      rw [if_pos h3]
      have hup : upperDigit c = true := by rw [upperDigit, h3, Bool.true_or]
      have hrun : (c :: cs).takeWhile upperDigit = c :: cs.takeWhile upperDigit := by
        rw [List.takeWhile_cons, if_pos hup]
      by_cases h4 : (1 < ((c :: cs).takeWhile upperDigit).length &&
          !((c :: cs).dropWhile upperDigit).isEmpty) = true
      · rw [if_pos h4]
        rw [Bool.and_eq_true, decide_eq_true_eq] at h4
        obtain ⟨hlen, hne⟩ := h4
        cases ha : (c :: cs).dropWhile upperDigit with
        | nil => rw [ha] at hne; exact absurd hne (by simp)
        | cons a rest =>
          have hgl : ∃ t, ((c :: cs).takeWhile upperDigit).getLast? = some t := by
            rw [hrun]
            exact ⟨_, List.getLast?_cons⟩
          obtain ⟨t, hglt⟩ := hgl
          rw [backOff_char (fun x hx => mem_takeWhile hx) hglt]
          by_cases hl : pyIsLower a = true
          · rw [if_pos hl]
            rw [hrun] at hlen ⊢
            cases hcs : cs.takeWhile upperDigit with
            | nil => rw [hcs, List.length_cons, List.length_nil] at hlen; omega
            | cons d ds => exact ⟨_, rfl⟩
          · rw [if_neg hl, hrun]
            exact ⟨_, rfl⟩
      · rw [if_neg h4, hrun, List.cons_append]
        exact ⟨_, rfl⟩

theorem splitTok_tok_ne : ∀ {c : Char} {cs : List Char}, (splitTok (c :: cs)).1 ≠ [] := by
  intro c cs
  rw [splitTok]
  by_cases h1 : pyIsDigit c = true
  · rw [if_pos h1, List.takeWhile_cons, if_pos h1]
    exact List.cons_ne_nil _ _
  · rw [if_neg h1]
    by_cases h2 : pyIsLower c = true
    · rw [if_pos h2, List.takeWhile_cons, if_pos (by rw [lowerDigit, h2, Bool.true_or])]
      exact List.cons_ne_nil _ _
    · rw [if_neg h2]
      by_cases h3 : pyIsUpper c = true
      · rw [if_pos h3]
        have hup : upperDigit c = true := by rw [upperDigit, h3, Bool.true_or]
        have hrun : (c :: cs).takeWhile upperDigit = c :: cs.takeWhile upperDigit := by
          rw [List.takeWhile_cons, if_pos hup]
        by_cases h4 : (1 < ((c :: cs).takeWhile upperDigit).length &&
            !((c :: cs).dropWhile upperDigit).isEmpty) = true
        · rw [if_pos h4]
          rw [Bool.and_eq_true, decide_eq_true_eq] at h4
          obtain ⟨hlen, hne⟩ := h4
          cases ha : (c :: cs).dropWhile upperDigit with
          | nil => rw [ha] at hne; exact absurd hne (by simp)
          | cons a rest =>
            obtain ⟨t, hglt⟩ : ∃ t, ((c :: cs).takeWhile upperDigit).getLast? = some t := by
              rw [hrun]
              exact ⟨_, List.getLast?_cons⟩
            rw [backOff_char (fun x hx => mem_takeWhile hx) hglt]
            by_cases hl : pyIsLower a = true
            · rw [if_pos hl]
              intro hnil
              have := congrArg List.length hnil
              rw [List.length_dropLast, List.length_nil] at this
              omega
            · rw [if_neg hl, hrun]
              exact List.cons_ne_nil _ _
        · rw [if_neg h4, hrun, List.cons_append]
          exact List.cons_ne_nil _ _
      · rw [if_neg h3]
        exact List.cons_ne_nil _ _

theorem splitTok_rest_lt {c : Char} {cs : List Char} :
    (splitTok (c :: cs)).2.length < (c :: cs).length := by
  have happ := congrArg List.length (splitTok_append (c :: cs))
  rw [List.length_append] at happ
  have hne := @splitTok_tok_ne c cs
  have : 0 < (splitTok (c :: cs)).1.length := List.length_pos.mpr hne
  omega

end PyRefactor

namespace PyRefactor

/-! ## `extractWords` unfolding -/

theorem extractWordsAux_adequate :
    ∀ (fuel : Nat), ∀ {s : List Char}, s.length ≤ fuel →
      extractWordsAux fuel s = extractWords s := by
  intro fuel
  induction fuel using Nat.strong_induction_on with
  | _ fuel ih =>
    intro s hs
    match fuel, s with
    | 0, s =>
      interval_cases hlen : s.length
      · cases s with
        | nil => rfl
        | cons c cs => simp at hlen
    | fuel + 1, [] => rfl
    | fuel + 1, c :: cs =>
      rw [extractWordsAux]
      have hrest := @splitTok_rest_lt c cs
      rw [ih fuel (Nat.lt_succ_self fuel)
        (by rw [List.length_cons] at hs; rw [List.length_cons] at hrest; omega)]
      have h2 : extractWords (c :: cs) =
          (if (splitTok (c :: cs)).1 = ['_'] then
            extractWordsAux cs.length (splitTok (c :: cs)).2
          else (splitTok (c :: cs)).1 :: extractWordsAux cs.length (splitTok (c :: cs)).2) := by
        rw [extractWords, List.length_cons, extractWordsAux]
      rw [h2, ih cs.length (by rw [List.length_cons] at hs; omega)
        (by rw [List.length_cons] at hrest; omega)]

theorem extractWords_cons (c : Char) (cs : List Char) :
    extractWords (c :: cs) =
      if (splitTok (c :: cs)).1 = ['_'] then extractWords (splitTok (c :: cs)).2
      else (splitTok (c :: cs)).1 :: extractWords (splitTok (c :: cs)).2 := by
  have hrest := @splitTok_rest_lt c cs
  rw [extractWords, List.length_cons, extractWordsAux,
    extractWordsAux_adequate cs.length (by rw [List.length_cons] at hrest; omega)]

theorem splitTok_underscore (l : List Char) : splitTok ('_' :: l) = (['_'], l) := by
  rw [splitTok]
  rw [if_neg (by decide), if_neg (by decide), if_neg (by decide)]

theorem extractWords_underscore (l : List Char) :
    extractWords ('_' :: l) = extractWords l := by
  rw [extractWords_cons, splitTok_underscore, if_pos rfl]

end PyRefactor

namespace PyRefactor

/-! ## `toSnakeAux` unfolding -/

theorem pyStrip_length_le (s : List Char) : (pyStrip s).length ≤ s.length := by
  rw [pyStrip, List.length_reverse]
  calc ((s.dropWhile pyIsSpace).reverse.dropWhile pyIsSpace).length
      ≤ (s.dropWhile pyIsSpace).reverse.length := (List.dropWhile_suffix _).length_le
    _ = (s.dropWhile pyIsSpace).length := List.length_reverse _
    _ ≤ s.length := (List.dropWhile_suffix _).length_le

theorem inn_length_lt {s : List Char}
    (hcond : ¬(pyStrip s).takeWhile notAlnum = [] ∨
      ¬((((pyStrip s).dropWhile notAlnum).reverse.takeWhile notAlnum).reverse) = []) :
    ((((pyStrip s).dropWhile notAlnum).reverse.dropWhile notAlnum).reverse).length
      < s.length := by
  set t := pyStrip s with hT
  set rest := t.dropWhile notAlnum with hR
  have ht : t.length ≤ s.length := pyStrip_length_le s
  have hsplit := congrArg List.length (List.takeWhile_append_dropWhile notAlnum t)
  rw [List.length_append] at hsplit
  have hsplit2 := congrArg List.length (List.takeWhile_append_dropWhile notAlnum rest.reverse)
  rw [List.length_append] at hsplit2
  rw [List.length_reverse]
  have hinle : (rest.reverse.dropWhile notAlnum).length ≤ rest.length := by
    calc (rest.reverse.dropWhile notAlnum).length ≤ rest.reverse.length :=
        (List.dropWhile_suffix _).length_le
      _ = rest.length := List.length_reverse _
  rcases hcond with h | h
  · have : 0 < (t.takeWhile notAlnum).length := List.length_pos.mpr h
    have hreste : rest.length < t.length := by rw [hR]; omega
    omega
  · have h2 : ¬(rest.reverse.takeWhile notAlnum) = [] := by
      intro he
      exact h (by rw [he]; rfl)
    have : 0 < (rest.reverse.takeWhile notAlnum).length := List.length_pos.mpr h2
    have hrl : rest.length ≤ t.length := by
      rw [hR]; exact (List.dropWhile_suffix _).length_le
    rw [List.length_reverse] at hsplit2
    omega

theorem snakeBody_congr {r1 r2 : List Char → List Char} {s : List Char}
    (h : ∀ x, x.length < s.length → r1 x = r2 x) :
    snakeBody r1 s = snakeBody r2 s := by
  simp only [snakeBody]
  by_cases h0 : s.isEmpty
  · rw [if_pos h0, if_pos h0]
  · rw [if_neg h0, if_neg h0]
    by_cases h1 : (pyStrip s).isEmpty
    · rw [if_pos h1, if_pos h1]
    · rw [if_neg h1, if_neg h1]
      by_cases h2 : ((pyStrip s).dropWhile notAlnum).isEmpty
      · rw [if_pos h2, if_pos h2]
      · rw [if_neg h2, if_neg h2]
        by_cases h3 : (!((pyStrip s).takeWhile notAlnum).isEmpty ||
            !((((pyStrip s).dropWhile notAlnum).reverse.takeWhile notAlnum).reverse).isEmpty) = true
        · rw [if_pos h3, if_pos h3]
          have hlt : ((((pyStrip s).dropWhile notAlnum).reverse.dropWhile
              notAlnum).reverse).length < s.length := by
            apply inn_length_lt
            rw [Bool.or_eq_true] at h3
            rcases h3 with h3 | h3
            · exact Or.inl (by simp_all)
            · exact Or.inr (by simp_all)
          rw [h _ hlt]
        · rw [if_neg h3, if_neg h3]

end PyRefactor

namespace PyRefactor

theorem toSnakeAux_adequate :
    ∀ (fuel : Nat), ∀ {s : List Char}, s.length ≤ fuel →
      toSnakeAux fuel s = snakeBody toSnakeList s := by
  intro fuel
  induction fuel using Nat.strong_induction_on with
  | _ fuel ih =>
    intro s hs
    match fuel with
    | 0 =>
      have : s = [] := List.length_eq_zero.mp (Nat.le_zero.mp hs)
      subst this
      rfl
    | fuel + 1 =>
      rw [toSnakeAux]
      apply snakeBody_congr
      intro x hx
      have hx1 : x.length ≤ fuel := by omega
      rw [ih fuel (Nat.lt_succ_self fuel) hx1]
      rw [toSnakeList, ih x.length (by omega) le_rfl]

theorem toSnakeList_eq (s : List Char) : toSnakeList s = snakeBody toSnakeList s := by
  rw [toSnakeList, toSnakeAux_adequate s.length le_rfl]

theorem toSnakeList_nil : toSnakeList [] = [] := rfl

theorem toSnakeList_strip_nil {s : List Char} (h : pyStrip s = []) :
    toSnakeList s = [] := by
  rw [toSnakeList_eq]
  simp only [snakeBody]
  by_cases h0 : s.isEmpty
  · rw [if_pos h0]
    exact List.isEmpty_iff.mp h0
  · rw [if_neg h0, if_pos (by rw [h]; rfl)]
    exact h

theorem toSnakeList_all_punct {s : List Char} (hs : ¬s.isEmpty = true)
    (ht : ¬(pyStrip s).isEmpty = true)
    (hrest : (pyStrip s).dropWhile notAlnum = []) :
    toSnakeList s = pyStrip s := by
  rw [toSnakeList_eq]
  simp only [snakeBody]
  rw [if_neg hs, if_neg ht, if_pos (by rw [hrest]; rfl)]

theorem toSnakeList_splice {s : List Char} (hs : ¬s.isEmpty = true)
    (ht : ¬(pyStrip s).isEmpty = true)
    (hrest : ¬((pyStrip s).dropWhile notAlnum).isEmpty = true)
    (hcond : (!((pyStrip s).takeWhile notAlnum).isEmpty ||
      !((((pyStrip s).dropWhile notAlnum).reverse.takeWhile notAlnum).reverse).isEmpty) = true) :
    toSnakeList s = pyReplace (pyStrip s)
      ((((pyStrip s).dropWhile notAlnum).reverse.dropWhile notAlnum).reverse)
      (toSnakeList ((((pyStrip s).dropWhile notAlnum).reverse.dropWhile notAlnum).reverse)) := by
  rw [toSnakeList_eq]
  simp only [snakeBody]
  rw [if_neg hs, if_neg ht, if_neg hrest, if_pos hcond]

theorem toSnakeList_main {s : List Char} (hs : ¬s.isEmpty = true)
    (ht : ¬(pyStrip s).isEmpty = true)
    (hrest : ¬((pyStrip s).dropWhile notAlnum).isEmpty = true)
    (hcond : ¬(!((pyStrip s).takeWhile notAlnum).isEmpty ||
      !((((pyStrip s).dropWhile notAlnum).reverse.takeWhile notAlnum).reverse).isEmpty) = true) :
    toSnakeList s = mainPath (pyStrip s) := by
  rw [toSnakeList_eq]
  simp only [snakeBody]
  rw [if_neg hs, if_neg ht, if_neg hrest, if_neg hcond]

end PyRefactor

namespace PyRefactor

/-! ## Good words and their joins -/

theorem notAlnum_false {c : Char} (h : notAlnum c = false) : pyIsAlnum c = true := by
  rwa [notAlnum, Bool.not_eq_false'] at h

theorem notAlnum_of_alnum {c : Char} (h : pyIsAlnum c = true) : notAlnum c = false := by
  rw [notAlnum, h]
  rfl

theorem notAlnum_true {c : Char} (h : notAlnum c = true) : pyIsAlnum c = false := by
  rwa [notAlnum, Bool.not_eq_true'] at h

theorem pyIsLower_not_digit {c : Char} (h : pyIsLower c = true) :
    pyIsDigit c = false := by
  rw [Bool.eq_false_iff]
  intro hd
  simp only [pyIsLower, pyIsDigit, Bool.and_eq_true, decide_eq_true_eq] at h hd
  omega

theorem pyIsDigit_lowerDigit {c : Char} (h : pyIsDigit c = true) :
    lowerDigit c = true := by
  rw [lowerDigit, h, Bool.or_true]

theorem pyIsLower_lowerDigit {c : Char} (h : pyIsLower c = true) :
    lowerDigit c = true := by
  rw [lowerDigit, h, Bool.true_or]

theorem goodWord_ne_nil {w : List Char} (h : goodWord w) : w ≠ [] := by
  cases w with
  | nil => exact absurd h (by rw [goodWord]; exact not_false)
  | cons c cs => exact List.cons_ne_nil c cs

theorem goodWord_chars {w : List Char} (h : goodWord w) :
    ∀ a ∈ w, lowerDigit a = true := by
  cases w with
  | nil => exact absurd h (by rw [goodWord]; exact not_false)
  | cons c cs =>
    rw [goodWord] at h
    intro a ha
    rcases List.mem_cons.mp ha with ha | ha
    · subst ha
      rcases h with ⟨h1, _⟩ | ⟨h1, _⟩
      · exact pyIsDigit_lowerDigit h1
      · exact pyIsLower_lowerDigit h1
    · rcases h with ⟨_, h2⟩ | ⟨_, h2⟩
      · exact pyIsDigit_lowerDigit (h2 a ha)
      · exact h2 a ha

theorem goodWord_head_alnum {c : Char} {cs : List Char} (h : goodWord (c :: cs)) :
    pyIsAlnum c = true :=
  lowerDigit_alnum (goodWord_chars h c (List.mem_cons_self c cs))

theorem joinWords_cons₂ (w w2 : List Char) (ws : List (List Char)) :
    joinWords (w :: w2 :: ws) = w ++ '_' :: joinWords (w2 :: ws) := rfl

theorem joinWords_ne_nil : ∀ {ws : List (List Char)}, ws ≠ [] →
    (∀ w ∈ ws, goodWord w) → joinWords ws ≠ []
  | [], h, _ => absurd rfl h
  | [w], _, hg => by
    rw [joinWords]
    exact goodWord_ne_nil (hg w (List.mem_cons_self w []))
  | w :: w2 :: ws, _, _ => by
    rw [joinWords_cons₂]
    intro he
    rcases List.append_eq_nil.mp he with ⟨_, h2⟩
    exact List.cons_ne_nil _ _ h2

theorem joinWords_chars : ∀ {ws : List (List Char)}, (∀ w ∈ ws, goodWord w) →
    ∀ c ∈ joinWords ws, lowerDigit c = true ∨ c = '_'
  | [], _, c, hc => absurd hc (List.not_mem_nil c)
  | [w], hg, c, hc => by
    rw [joinWords] at hc
    exact Or.inl (goodWord_chars (hg w (List.mem_cons_self w [])) c hc)
  | w :: w2 :: ws, hg, c, hc => by
    rw [joinWords_cons₂] at hc
    rcases List.mem_append.mp hc with hc | hc
    · exact Or.inl (goodWord_chars (hg w (List.mem_cons_self w _)) c hc)
    · rcases List.mem_cons.mp hc with hc | hc
      · exact Or.inr hc
      · exact joinWords_chars (fun x hx => hg x (List.mem_cons_of_mem w hx)) c hc

theorem joinWords_cons_head (c : Char) (cs : List Char) (ws : List (List Char)) :
    ∃ Y, joinWords ((c :: cs) :: ws) = c :: Y := by
  cases ws with
  | nil => exact ⟨cs, rfl⟩
  | cons w2 ws => exact ⟨cs ++ '_' :: joinWords (w2 :: ws), rfl⟩

theorem joinWords_getLast_lowerDigit : ∀ {ws : List (List Char)}, ws ≠ [] →
    (∀ w ∈ ws, goodWord w) → ∀ {c : Char}, (joinWords ws).getLast? = some c →
      lowerDigit c = true
  | [], h, _, _, _ => absurd rfl h
  | [w], _, hg, c, hc => by
    rw [joinWords] at hc
    have hmem : c ∈ w := List.mem_of_mem_getLast? hc
    exact goodWord_chars (hg w (List.mem_cons_self w [])) c hmem
  | w :: w2 :: ws, _, hg, c, hc => by
    rw [joinWords_cons₂, List.getLast?_append] at hc
    have hne : joinWords (w2 :: ws) ≠ [] :=
      joinWords_ne_nil (List.cons_ne_nil w2 ws)
        (fun x hx => hg x (List.mem_cons_of_mem w hx))
    have h2 : ('_' :: joinWords (w2 :: ws)).getLast? = (joinWords (w2 :: ws)).getLast? := by
      have : ('_' :: joinWords (w2 :: ws)) = ['_'] ++ joinWords (w2 :: ws) := rfl
      rw [this, List.getLast?_append]
      cases hj : (joinWords (w2 :: ws)).getLast? with
      | none => exact absurd (List.getLast?_eq_none_iff.mp hj) hne
      | some d => rfl
    rw [h2] at hc
    cases hj : (joinWords (w2 :: ws)).getLast? with
    | none => exact absurd (List.getLast?_eq_none_iff.mp hj) hne
    | some d =>
      rw [hj] at hc
      have hcd : c = d := by
        have heq : (some d).or w.getLast? = some d := rfl
        rw [heq] at hc
        injection hc with h3
        exact h3.symm
      rw [hcd]
      exact joinWords_getLast_lowerDigit (List.cons_ne_nil w2 ws)
        (fun x hx => hg x (List.mem_cons_of_mem w hx)) hj

end PyRefactor

namespace PyRefactor

/-! ## The tokenizer on joined good words -/

theorem map_pyToLower_id {w : List Char} (h : ∀ c ∈ w, lowerDigit c = true) :
    w.map pyToLower = w := by
  induction w with
  | nil => rfl
  | cons c cs ih =>
    rw [List.map_cons, pyToLower_of_lowerDigit (h c (List.mem_cons_self c cs)),
      ih (fun x hx => h x (List.mem_cons_of_mem c hx))]

theorem splitTok_word {c : Char} {cs tail : List Char}
    (hg : goodWord (c :: cs)) (htail : tail = [] ∨ ∃ l, tail = '_' :: l) :
    splitTok ((c :: cs) ++ tail) = (c :: cs, tail) := by
  have hchars := goodWord_chars hg
  rw [goodWord] at hg
  rcases hg with ⟨h1, h2⟩ | ⟨h1, h2⟩
  · -- digit-led word: the digit branch consumes exactly the word
    have hall : ∀ a ∈ c :: cs, pyIsDigit a = true := by
      intro a ha
      rcases List.mem_cons.mp ha with ha | ha
      · subst ha; exact h1
      · exact h2 a ha
    rw [List.cons_append, splitTok, if_pos h1]
    rcases htail with ht | ⟨l, ht⟩
    · subst ht
      rw [show c :: (cs ++ ([] : List Char)) = c :: cs from by rw [List.append_nil],
        takeWhile_all hall, dropWhile_all hall]
    · subst ht
      rw [show c :: (cs ++ '_' :: l) = (c :: cs) ++ '_' :: l from rfl,
        takeWhile_all_append hall (by decide),
        dropWhile_all_append hall (by decide)]
  · -- lowercase-led word: the lowercase branch consumes exactly the word
    have hall : ∀ a ∈ c :: cs, lowerDigit a = true := hchars
    rw [List.cons_append, splitTok, if_neg (by rw [pyIsLower_not_digit h1]; exact Bool.false_ne_true),
      if_pos h1]
    rcases htail with ht | ⟨l, ht⟩
    · subst ht
      rw [show c :: (cs ++ ([] : List Char)) = c :: cs from by rw [List.append_nil],
        takeWhile_all hall, dropWhile_all hall]
    · subst ht
      rw [show c :: (cs ++ '_' :: l) = (c :: cs) ++ '_' :: l from rfl,
        takeWhile_all_append hall (by decide),
        dropWhile_all_append hall (by decide)]

end PyRefactor

namespace PyRefactor

theorem extractWords_joinWords : ∀ {ws : List (List Char)},
    (∀ w ∈ ws, goodWord w) → extractWords (joinWords ws) = ws
  | [], _ => rfl
  | [w], hg => by
    have hgw := hg w (List.mem_cons_self w [])
    obtain ⟨c, cs, hw⟩ : ∃ c cs, w = c :: cs := by
      cases w with
      | nil => exact absurd hgw (by rw [goodWord]; exact not_false)
      | cons c cs => exact ⟨c, cs, rfl⟩
    subst hw
    rw [joinWords]
    have hsp : splitTok ((c :: cs) ++ []) = (c :: cs, []) :=
      splitTok_word hgw (Or.inl rfl)
    rw [List.append_nil] at hsp
    rw [extractWords_cons, hsp]
    rw [if_neg (by
      intro he
      have : c = '_' := by injection he
      exact pyIsAlnum_ne_underscore (goodWord_head_alnum hgw) this)]
    rfl
  | w :: w2 :: ws, hg => by
    have hgw := hg w (List.mem_cons_self w _)
    obtain ⟨c, cs, hw⟩ : ∃ c cs, w = c :: cs := by
      cases w with
      | nil => exact absurd hgw (by rw [goodWord]; exact not_false)
      | cons c cs => exact ⟨c, cs, rfl⟩
    subst hw
    rw [joinWords_cons₂]
    have hsp : splitTok ((c :: cs) ++ '_' :: joinWords (w2 :: ws)) =
        (c :: cs, '_' :: joinWords (w2 :: ws)) :=
      splitTok_word hgw (Or.inr ⟨_, rfl⟩)
    rw [show (c :: cs) ++ '_' :: joinWords (w2 :: ws) =
      c :: (cs ++ '_' :: joinWords (w2 :: ws)) from rfl] at hsp
    rw [show (c :: cs) ++ '_' :: joinWords (w2 :: ws) =
      c :: (cs ++ '_' :: joinWords (w2 :: ws)) from rfl]
    rw [extractWords_cons, hsp]
    rw [if_neg (by
      intro he
      have : c = '_' := by injection he
      exact pyIsAlnum_ne_underscore (goodWord_head_alnum hgw) this)]
    rw [extractWords_underscore,
      extractWords_joinWords (fun x hx => hg x (List.mem_cons_of_mem (c :: cs) hx))]

end PyRefactor

namespace PyRefactor

/-! ## Tokens of word-character strings are good words -/

theorem pyIsLower_pyToLower_of_upper {c : Char} (h : pyIsUpper c = true) :
    pyIsLower (pyToLower c) = true := by
  have ht := toNat_pyToLower_upper h
  simp only [pyIsUpper, Bool.and_eq_true, decide_eq_true_eq] at h
  simp only [pyIsLower, Bool.and_eq_true, decide_eq_true_eq, ht]
  omega

theorem splitTok_tok_good {c : Char} {cs : List Char}
    (hword : ∀ a ∈ c :: cs, pyIsWord a = true)
    (hne : (splitTok (c :: cs)).1 ≠ ['_']) :
    goodWord ((splitTok (c :: cs)).1.map pyToLower) := by
  by_cases h1 : pyIsDigit c = true
  · have hsp : (splitTok (c :: cs)).1 = c :: cs.takeWhile pyIsDigit := by
      rw [splitTok, if_pos h1, List.takeWhile_cons, if_pos h1]
    rw [hsp, map_pyToLower_id (by
      intro a ha
      rcases List.mem_cons.mp ha with ha | ha
      · subst ha; exact pyIsDigit_lowerDigit h1
      · exact pyIsDigit_lowerDigit (mem_takeWhile ha))]
    rw [goodWord]
    exact Or.inl ⟨h1, fun a ha => mem_takeWhile ha⟩
  · by_cases h2 : pyIsLower c = true
    · have hsp : (splitTok (c :: cs)).1 = c :: cs.takeWhile lowerDigit := by
        rw [splitTok, if_neg h1, if_pos h2, List.takeWhile_cons,
          if_pos (pyIsLower_lowerDigit h2)]
      rw [hsp, map_pyToLower_id (by
        intro a ha
        rcases List.mem_cons.mp ha with ha | ha
        · subst ha; exact pyIsLower_lowerDigit h2
        · exact mem_takeWhile ha)]
      rw [goodWord]
      exact Or.inr ⟨h2, fun a ha => mem_takeWhile ha⟩
    · by_cases h3 : pyIsUpper c = true
      · have hup : upperDigit c = true := by rw [upperDigit, h3, Bool.true_or]
        have hlc : pyIsLower (pyToLower c) = true := pyIsLower_pyToLower_of_upper h3
        have hrun : (c :: cs).takeWhile upperDigit = c :: cs.takeWhile upperDigit := by
          rw [List.takeWhile_cons, if_pos hup]
        by_cases h4 : (1 < ((c :: cs).takeWhile upperDigit).length &&
            !((c :: cs).dropWhile upperDigit).isEmpty) = true
        · have hc4 := h4
          rw [Bool.and_eq_true, decide_eq_true_eq] at hc4
          obtain ⟨hlen, hne2⟩ := hc4
          cases ha : (c :: cs).dropWhile upperDigit with
          | nil => rw [ha] at hne2; exact absurd hne2 (by simp)
          | cons a rest =>
            obtain ⟨t, hglt⟩ : ∃ t, ((c :: cs).takeWhile upperDigit).getLast? = some t := by
              rw [hrun]
              exact ⟨_, List.getLast?_cons⟩
            have h4a : (decide (1 < ((c :: cs).takeWhile upperDigit).length) &&
                !(a :: rest).isEmpty) = true := by rw [← ha]; exact h4
            have hsp : (splitTok (c :: cs)).1 =
                (backOff ((c :: cs).takeWhile upperDigit) (a :: rest)).1 := by
              simp only [splitTok]
              rw [if_neg h1, if_neg h2, if_pos h3, ha, if_pos h4a]
            rw [hsp, backOff_char (fun x hx => mem_takeWhile hx) hglt]
            have hgood2 : ∀ (tok : List Char), tok = c :: tok.tail →
                (∀ x ∈ tok, upperDigit x = true) →
                goodWord (tok.map pyToLower) := by
              intro tok htok hall
              rw [htok, List.map_cons, goodWord]
              refine Or.inr ⟨hlc, ?_⟩
              intro x hx
              obtain ⟨y, hy, hxy⟩ := List.mem_map.mp hx
              subst hxy
              exact lowerDigit_pyToLower_of_upperDigit
                (hall y (htok ▸ List.mem_cons_of_mem c hy))
            by_cases hl : pyIsLower a = true
            · rw [if_pos hl]
              show goodWord ((((c :: cs).takeWhile upperDigit).dropLast).map pyToLower)
              rw [hrun]
              cases hcs : cs.takeWhile upperDigit with
              | nil =>
                rw [hrun, hcs, List.length_cons, List.length_nil] at hlen
                omega
              | cons d ds =>
                apply hgood2
                · rfl
                · intro x hx
                  have hx2 : x ∈ c :: d :: ds := List.mem_of_mem_dropLast hx
                  rw [← hcs] at hx2
                  rw [← hrun] at hx2
                  exact mem_takeWhile hx2
            · rw [if_neg hl]
              show goodWord (((c :: cs).takeWhile upperDigit).map pyToLower)
              apply hgood2
              · rw [hrun]
                rfl
              · intro x hx
                exact mem_takeWhile hx
        · have hsp : (splitTok (c :: cs)).1 =
              (c :: cs).takeWhile upperDigit ++
                ((c :: cs).dropWhile upperDigit).takeWhile lowerDigit := by
            rw [splitTok, if_neg h1, if_neg h2, if_pos h3, if_neg h4]
          rw [hsp, hrun, List.cons_append, List.map_cons, goodWord]
          refine Or.inr ⟨hlc, ?_⟩
          intro x hx
          obtain ⟨y, hy, hxy⟩ := List.mem_map.mp hx
          subst hxy
          rcases List.mem_append.mp hy with hy | hy
          · exact lowerDigit_pyToLower_of_upperDigit (mem_takeWhile hy)
          · rw [pyToLower_of_lowerDigit (mem_takeWhile hy)]
            exact mem_takeWhile hy
      · have hcu : c = '_' := by
          have hw := hword c (List.mem_cons_self c cs)
          rcases pyIsWord_cases hw with hw2 | hw2
          · rcases pyIsAlnum_cases hw2 with h | h | h
            · exact absurd h h1
            · exact absurd h h2
            · exact absurd h h3
          · exact hw2
        subst hcu
        rw [splitTok_underscore] at hne
        exact absurd rfl hne

theorem extractWords_good {u : List Char} (hword : ∀ a ∈ u, pyIsWord a = true) :
    ∀ w ∈ extractWords u, goodWord (w.map pyToLower) := by
  suffices H : ∀ (n : Nat) (v : List Char), v.length = n →
      (∀ a ∈ v, pyIsWord a = true) → ∀ w ∈ extractWords v, goodWord (w.map pyToLower) by
    exact H u.length u rfl hword
  intro n
  induction n using Nat.strong_induction_on with
  | _ n ih =>
    intro v hlen hv
    cases v with
    | nil =>
      intro w hw
      exact absurd hw (List.not_mem_nil w)
    | cons c cs =>
      intro w hw
      rw [extractWords_cons] at hw
      have hrl := @splitTok_rest_lt c cs
      have hrest_chars : ∀ a ∈ (splitTok (c :: cs)).2, pyIsWord a = true := by
        intro a ha
        exact hv a (by
          rw [← splitTok_append (c :: cs)]
          exact List.mem_append_right _ ha)
      by_cases hne : (splitTok (c :: cs)).1 = ['_']
      · rw [if_pos hne] at hw
        exact ih (splitTok (c :: cs)).2.length (by omega) _ rfl hrest_chars w hw
      · rw [if_neg hne] at hw
        rcases List.mem_cons.mp hw with hw | hw
        · subst hw
          exact splitTok_tok_good hv hne
        · exact ih (splitTok (c :: cs)).2.length (by omega) _ rfl hrest_chars w hw

end PyRefactor

namespace PyRefactor

/-! ## The main path produces a join of good words, and such joins are fixed -/

theorem subHS_chars : ∀ (b : Bool) (l : List Char), ∀ a ∈ subHS b l,
    a = '_' ∨ isHS a = false
  | _, [], a, ha => absurd ha (List.not_mem_nil a)
  | b, c :: rest, a, ha => by
    rw [subHS] at ha
    by_cases hc : isHS c = true
    · rw [if_pos hc] at ha
      cases b with
      | true => exact subHS_chars true rest a ha
      | false =>
        rcases List.mem_cons.mp ha with ha | ha
        · exact Or.inl ha
        · exact subHS_chars true rest a ha
    · rw [if_neg hc] at ha
      rcases List.mem_cons.mp ha with ha | ha
      · subst ha
        exact Or.inr (Bool.eq_false_iff.mpr hc)
      · exact subHS_chars false rest a ha

theorem subHS_id : ∀ (b : Bool) {l : List Char}, (∀ a ∈ l, isHS a = false) →
    subHS b l = l
  | _, [], _ => rfl
  | b, c :: rest, h => by
    rw [subHS, if_neg (by rw [h c (List.mem_cons_self c rest)]; exact Bool.false_ne_true),
      subHS_id false (fun x hx => h x (List.mem_cons_of_mem c hx))]

theorem map_id_of_mem {α : Type} {f : α → α} : ∀ {l : List α},
    (∀ a ∈ l, f a = a) → l.map f = l
  | [], _ => rfl
  | a :: l, h => by
    rw [List.map_cons, h a (List.mem_cons_self a l),
      map_id_of_mem (fun x hx => h x (List.mem_cons_of_mem a hx))]

theorem mainPath_good {c : Char} {cs : List Char} (hc : pyIsAlnum c = true) :
    ∃ ws, mainPath (c :: cs) = joinWords ws ∧ ws ≠ [] ∧ ∀ w ∈ ws, goodWord w := by
  have hhs : isHS c = false := pyIsAlnum_not_hs hc
  have hword : pyIsWord c = true := pyIsWord_of_alnum hc
  have hu : subSpecial (subHS false (c :: cs)) =
      c :: subSpecial (subHS false cs) := by
    rw [subHS, if_neg (by rw [hhs]; exact Bool.false_ne_true)]
    rw [subSpecial, List.filter_cons_of_pos (by rw [hword, Bool.true_or])]
    rfl
  have huchars : ∀ a ∈ subSpecial (subHS false (c :: cs)), pyIsWord a = true := by
    intro a ha
    rw [subSpecial] at ha
    have hmem := List.mem_of_mem_filter ha
    have hprop := List.of_mem_filter ha
    rcases subHS_chars false (c :: cs) a hmem with h | h
    · subst h; decide
    · rw [Bool.or_eq_true] at hprop
      rcases hprop with hp | hp
      · exact hp
      · rw [isHS, Bool.or_eq_false_iff] at h
        rw [h.2] at hp
        exact absurd hp Bool.false_ne_true
  set u' := subSpecial (subHS false cs) with hu'
  have hgood := extractWords_good huchars
  rw [mainPath, hu]
  rw [hu] at hgood
  rw [if_neg (by rw [List.isEmpty_cons]; exact Bool.false_ne_true)]
  refine ⟨(extractWords (c :: u')).map (List.map pyToLower), rfl, ?_, ?_⟩
  · obtain ⟨w1, hw1⟩ := splitTok_tok_cons u' hc
    rw [extractWords_cons, hw1]
    rw [if_neg (by
      intro he
      have : c = '_' := by injection he
      exact pyIsAlnum_ne_underscore hc this)]
    simp
  · intro w hw
    obtain ⟨w0, hw0, hww⟩ := List.mem_map.mp hw
    subst hww
    exact hgood w0 hw0

theorem snake_fixpoint {ws : List (List Char)} (hne : ws ≠ [])
    (hg : ∀ w ∈ ws, goodWord w) : toSnakeList (joinWords ws) = joinWords ws := by
  obtain ⟨w, ws', hws⟩ : ∃ w ws', ws = w :: ws' := by
    cases ws with
    | nil => exact absurd rfl hne
    | cons w ws' => exact ⟨w, ws', rfl⟩
  subst hws
  have hgw := hg w (List.mem_cons_self w ws')
  obtain ⟨c0, cs0, hw⟩ : ∃ c0 cs0, w = c0 :: cs0 := by
    cases w with
    | nil => exact absurd hgw (by rw [goodWord]; exact not_false)
    | cons c0 cs0 => exact ⟨c0, cs0, rfl⟩
  subst hw
  obtain ⟨Y, hWY⟩ := joinWords_cons_head c0 cs0 ws'
  have hc0 : lowerDigit c0 = true :=
    goodWord_chars hgw c0 (List.mem_cons_self c0 cs0)
  have hc0a : pyIsAlnum c0 = true := lowerDigit_alnum hc0
  have hWchars : ∀ a ∈ joinWords ((c0 :: cs0) :: ws'), lowerDigit a = true ∨ a = '_' :=
    joinWords_chars hg
  have hWnospace : ∀ a ∈ joinWords ((c0 :: cs0) :: ws'), pyIsSpace a = false := by
    intro a ha
    rcases hWchars a ha with h | h
    · exact lowerDigit_not_space h
    · subst h; decide
  have hstrip : pyStrip (joinWords ((c0 :: cs0) :: ws')) =
      joinWords ((c0 :: cs0) :: ws') := by
    apply pyStrip_eq_self
    · intro d hd
      cases hj : joinWords ((c0 :: cs0) :: ws') with
      | nil => rw [hj] at hd; exact absurd hd (by simp)
      | cons e Z =>
        rw [hj, List.head?_cons] at hd
        have : e = d := by injection hd
        subst this
        exact hWnospace e (by rw [hj]; exact List.mem_cons_self e Z)
    · intro d hd
      exact hWnospace d (List.mem_of_mem_getLast? hd)
  -- the trailing character of the join is a word character
  obtain ⟨dlast, hdlast⟩ : ∃ d, (joinWords ((c0 :: cs0) :: ws')).getLast? = some d := by
    cases hj : joinWords ((c0 :: cs0) :: ws') with
    | nil => exact absurd hj (joinWords_ne_nil hne hg)
    | cons e Z => exact ⟨_, List.getLast?_cons⟩
  have hdl : lowerDigit dlast = true :=
    joinWords_getLast_lowerDigit hne hg hdlast
  have hrevW : ∃ Z, (joinWords ((c0 :: cs0) :: ws')).reverse = dlast :: Z := by
    cases hr : (joinWords ((c0 :: cs0) :: ws')).reverse with
    | nil =>
      have := congrArg List.reverse hr
      rw [List.reverse_reverse] at this
      exact absurd this (joinWords_ne_nil hne hg)
    | cons e Z =>
      have hh : (joinWords ((c0 :: cs0) :: ws')).reverse.head? = some e := by
        rw [hr]; rfl
      rw [List.head?_reverse, hdlast] at hh
      have : dlast = e := by injection hh
      subst this
      exact ⟨Z, rfl⟩
  obtain ⟨Z, hZ⟩ := hrevW
  have hWd : (joinWords ((c0 :: cs0) :: ws')).dropWhile notAlnum =
      joinWords ((c0 :: cs0) :: ws') := by
    rw [hWY, List.dropWhile_cons,
      if_neg (by rw [notAlnum_of_alnum hc0a]; exact Bool.false_ne_true), ← hWY]
  have hWt : (joinWords ((c0 :: cs0) :: ws')).takeWhile notAlnum = [] := by
    rw [hWY, List.takeWhile_cons,
      if_neg (by rw [notAlnum_of_alnum hc0a]; exact Bool.false_ne_true)]
  have hres := toSnakeList_main (s := joinWords ((c0 :: cs0) :: ws'))
    (by rw [hWY, List.isEmpty_cons]; exact Bool.false_ne_true)
    (by rw [hstrip, hWY, List.isEmpty_cons]; exact Bool.false_ne_true)
    (by rw [hstrip, hWd, hWY, List.isEmpty_cons]; exact Bool.false_ne_true)
    (by
      rw [hstrip, hWd, hWt, hZ, List.takeWhile_cons,
        if_neg (by rw [notAlnum_of_alnum (lowerDigit_alnum hdl)]; exact Bool.false_ne_true)]
      decide)
  rw [hres, hstrip, mainPath]
  have hid : subSpecial (subHS false (joinWords ((c0 :: cs0) :: ws'))) =
      joinWords ((c0 :: cs0) :: ws') := by
    rw [subHS_id false (by
      intro a ha
      rcases hWchars a ha with h | h
      · exact lowerDigit_not_hs h
      · subst h; decide)]
    rw [subSpecial, List.filter_eq_self.mpr (by
      intro a ha
      rcases hWchars a ha with h | h
      · rw [pyIsWord_of_alnum (lowerDigit_alnum h), Bool.true_or]
      · subst h; decide)]
  rw [hid, if_neg (by rw [hWY, List.isEmpty_cons]; exact Bool.false_ne_true)]
  rw [extractWords_joinWords hg]
  rw [map_id_of_mem (fun x hx => map_pyToLower_id (goodWord_chars (hg x hx)))]

end PyRefactor

namespace PyRefactor

/-! ## Idempotence: the splice case -/

/-- Decomposition of a string around its trimmed inner span: the leading and
trailing runs of non-alphanumeric characters, and the inner span whose first
and last characters are alphanumeric. -/
theorem trim_decomp {t : List Char} (hne : t.dropWhile notAlnum ≠ []) :
    ∃ (h d : Char) (tl : List Char),
      ((t.dropWhile notAlnum).reverse.dropWhile notAlnum).reverse = h :: tl ∧
      pyIsAlnum h = true ∧ pyIsAlnum d = true ∧
      (h :: tl).getLast? = some d ∧
      t = t.takeWhile notAlnum ++ (h :: tl) ++
        ((t.dropWhile notAlnum).reverse.takeWhile notAlnum).reverse := by
  obtain ⟨c0, rest2, hrest⟩ : ∃ c0 rest2, t.dropWhile notAlnum = c0 :: rest2 := by
    cases hx : t.dropWhile notAlnum with
    | nil => exact absurd hx hne
    | cons c0 rest2 => exact ⟨c0, rest2, rfl⟩
  have hc0 : pyIsAlnum c0 = true := notAlnum_false (head_dropWhile hrest)
  have hinnR_ne : (t.dropWhile notAlnum).reverse.dropWhile notAlnum ≠ [] := by
    intro he
    have hsp := List.takeWhile_append_dropWhile notAlnum (t.dropWhile notAlnum).reverse
    rw [he, List.append_nil] at hsp
    have hc0m : c0 ∈ (t.dropWhile notAlnum).reverse := by
      rw [List.mem_reverse, hrest]
      exact List.mem_cons_self c0 rest2
    rw [← hsp] at hc0m
    have hcontra := mem_takeWhile hc0m
    rw [notAlnum, hc0] at hcontra
    simp at hcontra
  obtain ⟨e, innR2, hinnR⟩ : ∃ e innR2,
      (t.dropWhile notAlnum).reverse.dropWhile notAlnum = e :: innR2 := by
    cases hx : (t.dropWhile notAlnum).reverse.dropWhile notAlnum with
    | nil => exact absurd hx hinnR_ne
    | cons e innR2 => exact ⟨e, innR2, rfl⟩
  have he_al : pyIsAlnum e = true := notAlnum_false (head_dropWhile hinnR)
  have hrest_eq : t.dropWhile notAlnum =
      ((t.dropWhile notAlnum).reverse.dropWhile notAlnum).reverse ++
      ((t.dropWhile notAlnum).reverse.takeWhile notAlnum).reverse := by
    have hsp := List.takeWhile_append_dropWhile notAlnum (t.dropWhile notAlnum).reverse
    have happ := congrArg List.reverse hsp
    rw [List.reverse_append, List.reverse_reverse] at happ
    exact happ.symm
  obtain ⟨h, tl, hinn⟩ : ∃ h tl,
      ((t.dropWhile notAlnum).reverse.dropWhile notAlnum).reverse = h :: tl := by
    cases hx : ((t.dropWhile notAlnum).reverse.dropWhile notAlnum).reverse with
    | nil =>
      rw [List.reverse_eq_nil_iff] at hx
      exact absurd hx hinnR_ne
    | cons h tl => exact ⟨h, tl, rfl⟩
  have hh : h = c0 := by
    rw [hinn, hrest, List.cons_append] at hrest_eq
    injection hrest_eq with h1 h2
    exact h1.symm
  have hgl : (h :: tl).getLast? = some e := by
    rw [← hinn, List.getLast?_reverse, hinnR]
    rfl
  refine ⟨h, e, tl, hinn, hh ▸ hc0, he_al, hgl, ?_⟩
  have ht := List.takeWhile_append_dropWhile notAlnum t
  rw [hrest_eq, hinn] at ht
  rw [List.append_assoc]
  exact ht.symm

end PyRefactor

namespace PyRefactor

theorem getLast?_append_ne {l₁ l₂ : List Char} (h : l₂ ≠ []) :
    (l₁ ++ l₂).getLast? = l₂.getLast? := by
  rw [List.getLast?_append]
  cases hx : l₂.getLast? with
  | none => exact absurd (List.getLast?_eq_none_iff.mp hx) h
  | some x => rfl

theorem rev_of_getLast {l : List Char} {c : Char} (h : l.getLast? = some c) :
    ∃ w, l.reverse = c :: w := by
  cases hr : l.reverse with
  | nil =>
    have := congrArg List.reverse hr
    rw [List.reverse_reverse] at this
    subst this
    exact absurd h (by simp)
  | cons e w =>
    have hh : l.reverse.head? = some e := by rw [hr]; rfl
    rw [List.head?_reverse, h] at hh
    have : c = e := by injection hh
    subst this
    exact ⟨w, rfl⟩

theorem head?_of_takeWhile_cons {p : Char → Bool} {t : List Char} {c : Char}
    {w : List Char} (h : t.takeWhile p = c :: w) : t.head? = some c := by
  cases t with
  | nil => simp at h
  | cons a t' =>
    rw [List.takeWhile_cons] at h
    by_cases hp : p a = true
    · rw [if_pos hp] at h
      have : a = c := by injection h
      subst this
      rfl
    · rw [if_neg hp] at h
      simp at h

theorem joinWords_shape {ws : List (List Char)} (hne : ws ≠ [])
    (hg : ∀ w ∈ ws, goodWord w) :
    ∃ e Y, joinWords ws = e :: Y ∧ lowerDigit e = true := by
  obtain ⟨w, ws', hws⟩ : ∃ w ws', ws = w :: ws' := by
    cases ws with
    | nil => exact absurd rfl hne
    | cons w ws' => exact ⟨w, ws', rfl⟩
  subst hws
  have hgw := hg w (List.mem_cons_self w ws')
  obtain ⟨c0, cs0, hw⟩ : ∃ c0 cs0, w = c0 :: cs0 := by
    cases w with
    | nil => exact absurd hgw (by rw [goodWord]; exact not_false)
    | cons c0 cs0 => exact ⟨c0, cs0, rfl⟩
  subst hw
  obtain ⟨Y, hY⟩ := joinWords_cons_head c0 cs0 ws'
  exact ⟨c0, Y, hY, goodWord_chars hgw c0 (List.mem_cons_self c0 cs0)⟩

/-- A string of the shape `wrapper ++ normalized-core ++ wrapper` is a fixed
point of the normalizer: re-running it trims the same wrappers, finds the
core already normalized, and splices everything back unchanged. -/
theorem splice_result_fixed {pre suf : List Char} {cws : List (List Char)}
    (hpre : ∀ a ∈ pre, notAlnum a = true)
    (hsuf : ∀ a ∈ suf, notAlnum a = true)
    (hpre_ns : ∀ c, pre.head? = some c → pyIsSpace c = false)
    (hsuf_ns : ∀ c, suf.getLast? = some c → pyIsSpace c = false)
    (hcws_ne : cws ≠ []) (hcws_good : ∀ w ∈ cws, goodWord w)
    (hcond : pre ≠ [] ∨ suf ≠ []) :
    toSnakeList (pre ++ joinWords cws ++ suf) = pre ++ joinWords cws ++ suf := by
  obtain ⟨e1, convY, hconvh, he1⟩ := joinWords_shape hcws_ne hcws_good
  have he1a : pyIsAlnum e1 = true := lowerDigit_alnum he1
  have hconv_ne : joinWords cws ≠ [] := joinWords_ne_nil hcws_ne hcws_good
  obtain ⟨d2, hd2⟩ : ∃ d2, (joinWords cws).getLast? = some d2 := by
    cases hx : (joinWords cws).getLast? with
    | none => exact absurd (List.getLast?_eq_none_iff.mp hx) hconv_ne
    | some d2 => exact ⟨d2, rfl⟩
  have hd2l : lowerDigit d2 = true := joinWords_getLast_lowerDigit hcws_ne hcws_good hd2
  obtain ⟨W2, hW2⟩ := rev_of_getLast hd2
  have hR1 : pre ++ joinWords cws ++ suf = pre ++ e1 :: (convY ++ suf) := by
    rw [hconvh, List.append_assoc, List.cons_append]
  have hRne : pre ++ joinWords cws ++ suf ≠ [] := by
    rw [hR1]
    intro habs
    rcases List.append_eq_nil.mp habs with ⟨_, h2⟩
    exact List.cons_ne_nil _ _ h2
  have hstripR : pyStrip (pre ++ joinWords cws ++ suf) = pre ++ joinWords cws ++ suf := by
    apply pyStrip_eq_self
    · intro c hc
      cases hp : pre with
      | nil =>
        rw [hR1, hp, List.nil_append, List.head?_cons] at hc
        have : e1 = c := by injection hc
        subst this
        exact pyIsAlnum_not_space he1a
      | cons p0 pre' =>
        rw [hR1, hp, List.cons_append, List.head?_cons] at hc
        have : p0 = c := by injection hc
        subst this
        exact hpre_ns p0 (by rw [hp]; rfl)
    · intro c hc
      by_cases hs : suf = []
      · subst hs
        rw [List.append_nil, getLast?_append_ne hconv_ne, hd2] at hc
        have : d2 = c := by injection hc
        subst this
        exact pyIsAlnum_not_space (lowerDigit_alnum hd2l)
      · rw [getLast?_append_ne hs] at hc
        exact hsuf_ns c hc
  have htakeR : (pre ++ joinWords cws ++ suf).takeWhile notAlnum = pre := by
    rw [hR1]
    exact takeWhile_all_append hpre (notAlnum_of_alnum he1a)
  have hdropR : (pre ++ joinWords cws ++ suf).dropWhile notAlnum =
      joinWords cws ++ suf := by
    rw [hR1, dropWhile_all_append hpre (notAlnum_of_alnum he1a), hconvh,
      List.cons_append]
  have hsufrev : ∀ a ∈ suf.reverse, notAlnum a = true := by
    intro a ha
    exact hsuf a (List.mem_reverse.mp ha)
  have hsufR : (joinWords cws ++ suf).reverse.takeWhile notAlnum = suf.reverse := by
    rw [List.reverse_append, hW2]
    exact takeWhile_all_append hsufrev (notAlnum_of_alnum (lowerDigit_alnum hd2l))
  have hinnRp : (joinWords cws ++ suf).reverse.dropWhile notAlnum = d2 :: W2 := by
    rw [List.reverse_append, hW2]
    exact dropWhile_all_append hsufrev (notAlnum_of_alnum (lowerDigit_alnum hd2l))
  have hinnRev : (d2 :: W2).reverse = joinWords cws := by
    rw [← hW2, List.reverse_reverse]
  have hempty : ∀ {l : List Char}, l ≠ [] → ¬l.isEmpty = true := by
    intro l hl habs
    exact hl (List.isEmpty_iff.mp habs)
  have hfin := toSnakeList_splice (s := pre ++ joinWords cws ++ suf)
    (hempty hRne)
    (by rw [hstripR]; exact hempty hRne)
    (by
      rw [hstripR, hdropR]
      apply hempty
      intro habs
      rcases List.append_eq_nil.mp habs with ⟨hc, _⟩
      exact hconv_ne hc)
    (by
      rw [hstripR, htakeR, hdropR, hsufR, List.reverse_reverse]
      rw [Bool.or_eq_true]
      rcases hcond with hc | hc
      · exact Or.inl (by rw [List.isEmpty_eq_false.mpr hc]; rfl)
      · exact Or.inr (by rw [List.isEmpty_eq_false.mpr hc]; rfl))
  rw [hstripR, hdropR, hinnRp, hinnRev] at hfin
  rw [hfin, snake_fixpoint hcws_ne hcws_good, pyReplace_self]

end PyRefactor

namespace PyRefactor

theorem toSnakeList_splice_idem {s : List Char} (h0 : ¬s.isEmpty = true)
    (h1 : ¬(pyStrip s).isEmpty = true)
    (h2 : ¬((pyStrip s).dropWhile notAlnum).isEmpty = true)
    (h3 : (!((pyStrip s).takeWhile notAlnum).isEmpty ||
      !((((pyStrip s).dropWhile notAlnum).reverse.takeWhile notAlnum).reverse).isEmpty) = true) :
    toSnakeList (toSnakeList s) = toSnakeList s := by
  have hne : (pyStrip s).dropWhile notAlnum ≠ [] := by
    intro he
    exact h2 (by rw [he]; rfl)
  obtain ⟨h, d, tl, hinn, hal_h, hal_d, hgl, ht_eq⟩ := trim_decomp hne
  -- the inner span normalizes through the main path to a join of good words
  have hstrip_inn : pyStrip (h :: tl) = h :: tl := by
    apply pyStrip_eq_self
    · intro c hc
      rw [List.head?_cons] at hc
      have : h = c := by injection hc
      subst this
      exact pyIsAlnum_not_space hal_h
    · intro c hc
      rw [hgl] at hc
      have : d = c := by injection hc
      subst this
      exact pyIsAlnum_not_space hal_d
  have hdrop_inn : (h :: tl).dropWhile notAlnum = h :: tl := by
    rw [List.dropWhile_cons,
      if_neg (by rw [notAlnum_of_alnum hal_h]; exact Bool.false_ne_true)]
  have htake_inn : (h :: tl).takeWhile notAlnum = [] := by
    rw [List.takeWhile_cons,
      if_neg (by rw [notAlnum_of_alnum hal_h]; exact Bool.false_ne_true)]
  obtain ⟨Zr, hZr⟩ := rev_of_getLast hgl
  have hmain : toSnakeList (h :: tl) = mainPath (h :: tl) := by
    have hm := toSnakeList_main (s := h :: tl)
      (by rw [List.isEmpty_cons]; exact Bool.false_ne_true)
      (by rw [hstrip_inn, List.isEmpty_cons]; exact Bool.false_ne_true)
      (by rw [hstrip_inn, hdrop_inn, List.isEmpty_cons]; exact Bool.false_ne_true)
      (by
        rw [hstrip_inn, hdrop_inn, htake_inn, hZr, List.takeWhile_cons,
          if_neg (by rw [notAlnum_of_alnum hal_d]; exact Bool.false_ne_true)]
        decide)
    rwa [hstrip_inn] at hm
  obtain ⟨cws, hcwsEq, hcws_ne, hcws_good⟩ := mainPath_good hal_h
  have hconv : toSnakeList (h :: tl) = joinWords cws := hmain.trans hcwsEq
  have hsplice := toSnakeList_splice h0 h1 h2 h3
  rw [hinn, hconv] at hsplice
  have hpre : ∀ a ∈ (pyStrip s).takeWhile notAlnum, pyIsAlnum a = false :=
    fun a ha => notAlnum_true (mem_takeWhile ha)
  have hsuf : ∀ a ∈ (((pyStrip s).dropWhile notAlnum).reverse.takeWhile notAlnum).reverse,
      pyIsAlnum a = false :=
    fun a ha => notAlnum_true (mem_takeWhile (List.mem_reverse.mp ha))
  have hwrap : pyReplace (pyStrip s) (h :: tl) (joinWords cws) =
      (pyStrip s).takeWhile notAlnum ++ joinWords cws ++
        (((pyStrip s).dropWhile notAlnum).reverse.takeWhile notAlnum).reverse := by
    rw [pyReplace]
    conv_lhs => rw [ht_eq]
    rw [pyReplaceAux_wrapped hal_h hsuf _ _ hpre (by
      rw [ht_eq, List.length_append, List.length_append, List.length_cons]
      omega)]
  have hfinal : toSnakeList s =
      (pyStrip s).takeWhile notAlnum ++ joinWords cws ++
        (((pyStrip s).dropWhile notAlnum).reverse.takeWhile notAlnum).reverse :=
    hsplice.trans hwrap
  rw [hfinal]
  apply splice_result_fixed
  · exact fun a ha => mem_takeWhile ha
  · exact fun a ha => mem_takeWhile (List.mem_reverse.mp ha)
  · intro c hc
    obtain ⟨w, hw⟩ : ∃ w, (pyStrip s).takeWhile notAlnum = c :: w := by
      cases hx : (pyStrip s).takeWhile notAlnum with
      | nil => rw [hx] at hc; exact absurd hc (by simp)
      | cons e w =>
        rw [hx, List.head?_cons] at hc
        have : e = c := by injection hc
        subst this
        exact ⟨w, rfl⟩
    exact pyStrip_head_not_space (head?_of_takeWhile_cons hw)
  · intro c hc
    have hsufne : (((pyStrip s).dropWhile notAlnum).reverse.takeWhile notAlnum).reverse ≠ [] := by
      intro he
      rw [he] at hc
      exact absurd hc (by simp)
    apply pyStrip_getLast_not_space (l := s)
    rw [ht_eq, List.append_assoc, getLast?_append_ne (by
      intro he
      rcases List.append_eq_nil.mp he with ⟨_, h2x⟩
      exact hsufne h2x)]
    rw [getLast?_append_ne hsufne]
    exact hc
  · exact hcws_ne
  · exact hcws_good
  · rw [Bool.or_eq_true] at h3
    rcases h3 with h3 | h3
    · rw [Bool.not_eq_true'] at h3
      exact Or.inl (List.isEmpty_eq_false.mp h3)
    · rw [Bool.not_eq_true'] at h3
      exact Or.inr (List.isEmpty_eq_false.mp h3)

/-- Idempotence of the embedded `to_snake_case` on character lists. -/
theorem toSnakeList_idem (s : List Char) :
    toSnakeList (toSnakeList s) = toSnakeList s := by
  by_cases h0 : s.isEmpty = true
  · rw [List.isEmpty_iff.mp h0]
    rfl
  by_cases h1 : (pyStrip s).isEmpty = true
  · rw [toSnakeList_strip_nil (List.isEmpty_iff.mp h1)]
    rfl
  by_cases h2 : ((pyStrip s).dropWhile notAlnum).isEmpty = true
  · rw [toSnakeList_all_punct h0 h1 (List.isEmpty_iff.mp h2)]
    have hstrip2 : pyStrip (pyStrip s) = pyStrip s :=
      pyStrip_eq_self (fun c hc => pyStrip_head_not_space hc)
        (fun c hc => pyStrip_getLast_not_space hc)
    rw [toSnakeList_all_punct
      (by rw [← hstrip2] at h1; exact fun hx => h1 (by rwa [hstrip2]))
      (by rw [hstrip2]; exact h1)
      (by rw [hstrip2]; exact List.isEmpty_iff.mp h2)]
    exact hstrip2
  by_cases h3 : (!((pyStrip s).takeWhile notAlnum).isEmpty ||
      !((((pyStrip s).dropWhile notAlnum).reverse.takeWhile notAlnum).reverse).isEmpty) = true
  · exact toSnakeList_splice_idem h0 h1 h2 h3
  · -- main path: the whole stripped input begins with an alphanumeric character
    have hres := toSnakeList_main h0 h1 h2 h3
    have hpre : ((pyStrip s).takeWhile notAlnum).isEmpty = true := by
      by_contra hx
      apply h3
      rw [Bool.or_eq_true]
      refine Or.inl ?_
      rw [Bool.not_eq_true']
      exact Bool.eq_false_iff.mpr hx
    have hpre2 : (pyStrip s).takeWhile notAlnum = [] := List.isEmpty_iff.mp hpre
    have hdropEq : (pyStrip s).dropWhile notAlnum = pyStrip s := by
      have := List.takeWhile_append_dropWhile notAlnum (pyStrip s)
      rw [hpre2, List.nil_append] at this
      exact this
    obtain ⟨c0, t', hct⟩ : ∃ c0 t', pyStrip s = c0 :: t' := by
      cases hx : pyStrip s with
      | nil => rw [hx] at h1; exact absurd rfl h1
      | cons c0 t' => exact ⟨c0, t', rfl⟩
    have hc0 : pyIsAlnum c0 = true := by
      apply notAlnum_false
      apply head_dropWhile (l := pyStrip s)
      rw [hdropEq, hct]
    rw [hct] at hres
    obtain ⟨ws, hws, hws_ne, hws_good⟩ := @mainPath_good c0 t' hc0
    rw [hws] at hres
    rw [hres]
    exact snake_fixpoint hws_ne hws_good

end PyRefactor

namespace PyRefactor

/-! ## Claim theorems: the identifier normalizer -/

/-- C5: for every string `x`, `normalize (normalize x) = normalize x` — the
identifier normalizer `to_snake_case` is idempotent. -/
theorem C5_to_snake_case_idempotent (s : String) :
    to_snake_case (to_snake_case s) = to_snake_case s :=
  congrArg String.mk (toSnakeList_idem s.data)

/-- C4 (counterexample): the claim says an all-whitespace input passes
through unchanged, but `to_snake_case` strips it and returns the empty
string: `to_snake_case " " = ""` and `" " ≠ ""`. -/
theorem C4_counterexample :
    to_snake_case " " = "" ∧ (" " : String) ≠ "" := by
  constructor
  · decide
  · decide

/-- C4 (amended): `to_snake_case` is a total deterministic function; the
empty input is returned unchanged, and a nonempty whitespace-only input is
first stripped, yielding the empty string (not the input itself). -/
theorem C4_total_empty_whitespace :
    to_snake_case "" = "" ∧
    (∀ s : String, s.data ≠ [] → (∀ c ∈ s.data, pyIsSpace c = true) →
      to_snake_case s = "") := by
  constructor
  · decide
  · intro s _ hsp
    rw [to_snake_case, toSnakeList_strip_nil (pyStrip_nil_of_all_space hsp)]

/-- C4 (witness): the amended theorem applied at the whitespace-only
input `" "`. -/
theorem C4_total_empty_whitespace_witness :
    to_snake_case " " = "" :=
  C4_total_empty_whitespace.2 " " (by decide) (by decide)

/-- C6: the six literal normalizer cases from the specification. -/
theorem C6_literal_cases :
    to_snake_case "HelloWorld" = "hello_world" ∧
    to_snake_case "XMLHttpRequest" = "xml_http_request" ∧
    to_snake_case "get2HTTPResponses" = "get2_http_responses" ∧
    to_snake_case "" = "" ∧
    to_snake_case "123456" = "123456" ∧
    to_snake_case "already_snake_case" = "already_snake_case" := by
  refine ⟨?_, ?_, ?_, ?_, ?_, ?_⟩ <;> decide

end PyRefactor

namespace PyRefactor

/-! ## Claim theorems: engine operations -/

/-- C9: `SourceFile.move_to_module` ignores its `target_module_name`
argument — line 242 reassigns it from the current module name before any
use — so for any two argument values the result (return value, new module
name, and file-system effects) is identical, definitionally so in the
embedding. -/
theorem C9_move_to_module_ignores_argument (dir modName : String) (fs : FileSys)
    (t1 t2 : String) :
    move_to_module dir modName fs t1 = move_to_module dir modName fs t2 := rfl

/-- C10: for byte-identical file contents, `compare_codes_from_files`
returns `True` without consulting the parser (for every `load` function,
even an always-failing one); for distinct contents a parse failure on the
left file propagates. -/
theorem C10_compare_shortcircuit (load : String → Except String CodeTree)
    (l r : String) :
    (l = r → compare_codes_from_files load l r = .ok true) ∧
    (l ≠ r → ∀ e, load l = .error e →
      compare_codes_from_files load l r = .error e) := by
  constructor
  · intro h
    rw [compare_codes_from_files, if_pos h]
  · intro hne e herr
    rw [compare_codes_from_files, if_neg hne, compare_from_code, herr]
    rfl

/-- C10 (witness): two identical malformed files compare equal under a
parser that rejects everything, and distinct contents surface the parse
error. -/
theorem C10_compare_shortcircuit_witness :
    compare_codes_from_files (fun _ => .error "ParseError") "def (" "def (" = .ok true ∧
    compare_codes_from_files (fun _ => .error "ParseError") "a" "b" = .error "ParseError" :=
  ⟨(C10_compare_shortcircuit (fun _ => .error "ParseError") "def (" "def (").1 rfl,
    (C10_compare_shortcircuit (fun _ => .error "ParseError") "a" "b").2
      (by decide) "ParseError" rfl⟩

/-- C7 (counterexample): with previous module name `"foo"` and new name
`"baz"`, a plain import of the unrelated module `"foobar"` (raw-prefix
match without a following dot) is rewritten to `"bazbar"`, not left
untouched as the claim states. -/
theorem C7_counterexample :
    update_module_imports_in_file "foo" "baz" [PyNode.imp 0 ["foobar"]] =
      [PyNode.imp 0 ["bazbar"]] ∧
    update_module_imports_in_file "foo" "baz" [PyNode.imp 0 ["foobar"]] ≠
      [PyNode.imp 0 ["foobar"]] := by
  constructor
  · rfl
  · decide

theorem replaceFirst_of_leads {old s : List Char} (nw : List Char)
    (h : leadsWith old s = true) :
    replaceFirst old nw s = nw ++ s.drop old.length := by
  cases s with
  | nil =>
    cases old with
    | nil => simp [replaceFirst, leadsWith]
    | cons a as => simp [leadsWith] at h
  | cons c rest =>
    rw [replaceFirst, if_pos h]

/-- C7 (amended): `update_module_imports_in_file` rewrites a plain import
alias exactly when the alias starts with the previous module name as a raw
string prefix — whether or not a dot follows — substituting the first
occurrence (so an exact match becomes exactly the new name); non-matching
aliases, non-matching from-imports and non-import statements are untouched. -/
theorem C7_module_rewrite_by_raw_leading :
    (∀ (prev nw n : String) (nid : Nat), strStarts n prev = false →
      update_module_imports_in_file prev nw [PyNode.imp nid [n]] =
        [PyNode.imp nid [n]]) ∧
    (∀ (prev nw n : String) (nid : Nat), strStarts n prev = true →
      update_module_imports_in_file prev nw [PyNode.imp nid [n]] =
        [PyNode.imp nid [⟨nw.data ++ n.data.drop prev.data.length⟩]]) ∧
    (∀ (prev nw : String) (nid : Nat),
      update_module_imports_in_file prev nw [PyNode.imp nid [prev]] =
        [PyNode.imp nid [nw]]) ∧
    (∀ (prev nw md : String) (names : List String) (lvl nid : Nat),
      ¬(md ≠ "" ∧ strStarts md prev = true) →
      update_module_imports_in_file prev nw [PyNode.impFrom nid md names lvl] =
        [PyNode.impFrom nid md names lvl]) ∧
    (∀ (prev nw nm : String) (refs : List String) (nid : Nat),
      update_module_imports_in_file prev nw [PyNode.cls nid nm refs] =
        [PyNode.cls nid nm refs]) := by
  refine ⟨?_, ?_, ?_, ?_, ?_⟩
  · intro prev nw n nid h
    rw [update_module_imports_in_file, List.map_cons, List.map_nil, updModNode,
      List.map_cons, List.map_nil, if_neg (by rw [h]; exact Bool.false_ne_true)]
  · intro prev nw n nid h
    rw [update_module_imports_in_file, List.map_cons, List.map_nil, updModNode,
      List.map_cons, List.map_nil, if_pos h, strReplaceFirst,
      replaceFirst_of_leads nw.data h]
  · intro prev nw nid
    have hself : strStarts prev prev = true := by
      rw [strStarts]
      have := leadsWith_self_append prev.data []
      rwa [List.append_nil] at this
    rw [update_module_imports_in_file, List.map_cons, List.map_nil, updModNode,
      List.map_cons, List.map_nil, if_pos hself, strReplaceFirst,
      replaceFirst_of_leads nw.data hself, List.drop_length, List.append_nil]
  · intro prev nw md names lvl nid h
    rw [update_module_imports_in_file, List.map_cons, List.map_nil, updModNode,
      if_neg h]
  · intro prev nw nm refs nid
    rfl

/-- C7 (witness): the amended behaviour at concrete inputs — no-prefix
untouched, raw-prefix substituted, exact match renamed. -/
theorem C7_module_rewrite_witness :
    update_module_imports_in_file "foo" "baz" [PyNode.imp 0 ["bar"]] =
      [PyNode.imp 0 ["bar"]] ∧
    update_module_imports_in_file "foo" "baz" [PyNode.imp 0 ["foo.util"]] =
      [PyNode.imp 0 [⟨("baz" : String).data ++ ("foo.util" : String).data.drop ("foo" : String).data.length⟩]] ∧
    update_module_imports_in_file "foo" "baz" [PyNode.imp 0 ["foo"]] =
      [PyNode.imp 0 ["baz"]] :=
  ⟨C7_module_rewrite_by_raw_leading.1 "foo" "baz" "bar" 0 (by decide),
    C7_module_rewrite_by_raw_leading.2.1 "foo" "baz" "foo.util" 0 (by decide),
    C7_module_rewrite_by_raw_leading.2.2.1 "foo" "baz" 0⟩

/-- C8 (counterexample): reading the classes of an index built from a
source file with no class (`get_elements_by_type` for a missing kind)
inserts and retains an empty `ClassDef` bucket, so the resulting Code Index
has an empty kind bucket. -/
theorem C8_counterexample :
    hasEmptyBucket (get_elements_by_type Kind.cls
      [(Kind.imp, [PyNode.imp 0 ["os"]])]).2 = true := by
  decide

/-- C8 (amended): building an index retains no empty bucket —
`clean_code_tree` drops them — but the kind accessors are an exception: a
read of a kind absent from the dict stores and retains an empty bucket for
that kind. -/
theorem C8_build_no_empty_buckets :
    (∀ tr : RawTree, ∀ kv ∈ clean_code_tree tr, kv.2 ≠ []) ∧
    hasEmptyBucket (get_elements_by_type Kind.cls
      [(Kind.imp, [PyNode.imp 0 ["os"]])]).2 = true := by
  constructor
  · intro tr kv hkv
    rw [clean_code_tree] at hkv
    have hp := List.of_mem_filter hkv
    intro he
    rw [he] at hp
    simp at hp
  · decide

/-- C8 (witness): the amended theorem applied to a concrete built index. -/
theorem C8_build_no_empty_buckets_witness :
    ((Kind.imp, [RawNode.node 0 Kind.imp []]) : Kind × List RawNode).2 ≠ [] :=
  C8_build_no_empty_buckets.1 [(Kind.imp, [RawNode.node 0 Kind.imp []])]
    (Kind.imp, [RawNode.node 0 Kind.imp []])
    (by
      have hcl : clean_code_tree [(Kind.imp, [RawNode.node 0 Kind.imp []])] =
          [(Kind.imp, [RawNode.node 0 Kind.imp []])] := rfl
      rw [hcl]
      exact List.mem_singleton.mpr rfl)

end PyRefactor

namespace PyRefactor

/-! ## Claim theorems: dependency-resolver ordering -/

theorem orderedPick_append_copies {α : Type} {a : α} {out cands : List α} :
    ∀ (ga : List α), (∀ b ∈ ga, b = a) → OrderedPick out (a :: cands) →
      OrderedPick (ga ++ out) (a :: cands)
  | [], _, h => h
  | b :: ga, hb, h => by
    have hba : b = a := hb b (List.mem_cons_self b ga)
    subst hba
    rw [List.cons_append]
    exact OrderedPick.keep b
      (orderedPick_append_copies ga (fun x hx => hb x (List.mem_cons_of_mem b hx)) h)

theorem orderedPick_flatMap {α : Type} (g : α → List α)
    (hg : ∀ a, ∀ b ∈ g a, b = a) : ∀ (l : List α), OrderedPick (l.flatMap g) l
  | [] => OrderedPick.nil []
  | a :: l => by
    rw [List.flatMap_cons]
    exact orderedPick_append_copies (g a) (hg a)
      (OrderedPick.next a (orderedPick_flatMap g hg l))

theorem orderedPick_filter {α : Type} (p : α → Bool) :
    ∀ (l : List α), OrderedPick (l.filter p) l
  | [] => OrderedPick.nil []
  | a :: l => by
    by_cases hp : p a = true
    · rw [List.filter_cons_of_pos hp]
      exact OrderedPick.keep a (OrderedPick.next a (orderedPick_filter p l))
    · rw [List.filter_cons_of_neg hp]
      exact OrderedPick.next a (orderedPick_filter p l)

end PyRefactor

namespace PyRefactor

theorem orderedPick_mem {α : Type} {out cands : List α}
    (h : OrderedPick out cands) : ∀ a ∈ out, a ∈ cands := by
  induction h with
  | nil cands => intro a ha; exact absurd ha (List.not_mem_nil a)
  | keep c h ih =>
    intro a ha
    rcases List.mem_cons.mp ha with ha | ha
    · subst ha; exact List.mem_cons_self a _
    · exact ih a ha
  | next c h ih =>
    intro a ha
    exact List.mem_cons_of_mem c (ih a ha)

theorem orderedPick_tail {α : Type} {out cands : List α}
    (h : OrderedPick out cands) : ∀ {u : α} {out' : List α}, out = u :: out' →
      ∃ l1 l2, cands = l1 ++ u :: l2 ∧ OrderedPick out' (u :: l2) := by
  induction h with
  | nil cands =>
    intro u out' he
    exact absurd he.symm (List.cons_ne_nil u out')
  | keep c h ih =>
    intro u out' he
    injection he with h1 h2
    subst h1
    subst h2
    exact ⟨[], _, rfl, h⟩
  | next c h ih =>
    intro u out' he
    obtain ⟨l1, l2, hsplit, hpick⟩ := ih he
    exact ⟨c :: l1, l2, by rw [hsplit, List.cons_append], hpick⟩

/-- C3 (counterexample): the whole-module reconciliation
`get_code_tree_required_imports` returns `list(required_imports_set)`; set
iteration order is unspecified, and under the admissible enumeration that
lists the distinct selected imports in reverse, two required imports come
back in the opposite of candidate order. -/
theorem C3_counterexample :
    ¬ (∀ (enum : List PyNode → List PyNode),
        (∀ l, List.Perm (enum l) l.dedup) →
        ∀ (tr : CodeTree) (imports : List PyNode),
          OrderedPick (get_code_tree_required_imports enum tr imports) imports) := by
  intro hcl
  have h := hcl enumRev (fun l => List.reverse_perm _)
    [(Kind.exprStmt, [PyNode.exprStmt 2 ["os", "sys"]])]
    [PyNode.imp 0 ["os"], PyNode.imp 1 ["sys"]]
  have hcomp : get_code_tree_required_imports enumRev
      [(Kind.exprStmt, [PyNode.exprStmt 2 ["os", "sys"]])]
      [PyNode.imp 0 ["os"], PyNode.imp 1 ["sys"]] =
      [PyNode.imp 1 ["sys"], PyNode.imp 0 ["os"]] := by decide
  rw [hcomp] at h
  obtain ⟨l1, l2, hsplit, hpick⟩ := orderedPick_tail h rfl
  have hmem := orderedPick_mem hpick (PyNode.imp 0 ["os"]) (List.mem_cons_self _ _)
  match l1, hsplit with
  | [], hs =>
    rw [List.nil_append] at hs
    injection hs with h1 _
    exact absurd h1 (by decide)
  | [a], hs =>
    rw [List.cons_append, List.nil_append] at hs
    injection hs with h1 h2
    injection h2 with h3 h4
    subst h4
    exact absurd hmem (by decide)
  | a :: b :: l1', hs =>
    rw [List.cons_append, List.cons_append] at hs
    injection hs with h1 h2
    injection h2 with h3 h4
    simp at h4

end PyRefactor

namespace PyRefactor

/-- C3 (amended): the per-class dependency resolvers return their selection
in candidate order (repetitions of a candidate, one per matching alias, stay
adjacent); the whole-module reconciliation returns the distinct
selected imports as a set — some permutation of them — with no order
guarantee. -/
theorem C3_resolver_order :
    (∀ (c : PyNode) (imports : List PyNode),
      OrderedPick (get_class_required_imports c imports) imports) ∧
    (∀ (c : PyNode) (ifs : List PyNode),
      OrderedPick (get_class_required_import_froms c ifs) ifs) ∧
    (∀ (enum : List PyNode → List PyNode),
      (∀ l, List.Perm (enum l) l.dedup) →
      ∀ (tr : CodeTree) (imports : List PyNode),
        List.Perm (get_code_tree_required_imports enum tr imports)
          (selectRequired tr imports).dedup) := by
  refine ⟨?_, ?_, ?_⟩
  · intro c imports
    rw [get_class_required_imports]
    apply orderedPick_flatMap
    intro a b hb
    cases a with
    | imp nid names =>
      obtain ⟨x, _, hx⟩ := List.mem_map.mp hb
      exact hx.symm
    | impFrom nid md names lvl =>
      have hb2 : b ∈ (if md ≠ "" ∧ (names.any fun a => (refsOf c).contains a) = true
          then [PyNode.impFrom nid md names lvl] else []) := hb
      by_cases hc : md ≠ "" ∧ (names.any fun a => (refsOf c).contains a) = true
      · rw [if_pos hc] at hb2
        exact List.mem_singleton.mp hb2
      · rw [if_neg hc] at hb2
        exact absurd hb2 (List.not_mem_nil b)
    | cls nid nm refs => exact absurd hb (List.not_mem_nil b)
    | fnDef nid nm refs => exact absurd hb (List.not_mem_nil b)
    | assign nid t refs => exact absurd hb (List.not_mem_nil b)
    | annAssign nid t refs => exact absurd hb (List.not_mem_nil b)
    | exprStmt nid refs => exact absurd hb (List.not_mem_nil b)
  · intro c ifs
    rw [get_class_required_import_froms]
    exact orderedPick_filter _ ifs
  · intro enum h tr imports
    rw [get_code_tree_required_imports]
    exact h _

/-- C3 (witness): the set-wise correctness of reconciliation applied at a
concrete admissible enumeration and input. -/
theorem C3_resolver_order_witness :
    List.Perm (get_code_tree_required_imports (fun l => l.dedup)
      [(Kind.exprStmt, [PyNode.exprStmt 2 ["os"]])] [PyNode.imp 0 ["os"]])
      (selectRequired [(Kind.exprStmt, [PyNode.exprStmt 2 ["os"]])]
        [PyNode.imp 0 ["os"]]).dedup :=
  C3_resolver_order.2.2 (fun l => l.dedup) (fun l => List.Perm.refl _) _ _

end PyRefactor

namespace PyRefactor

/-! ## Claim theorems: the extraction loop and full refactor -/

/-- C2: when the class at the cursor has a target path equal to the
module's own path (exactly, or up to letter case), one pass of the
extraction loop changes nothing — no file is written, the class stays in
the Code Index, no import is inserted — and only the cursor advances. -/
theorem C2_collision_skip (enum : List PyNode → List PyNode) (fuel : Nat)
    (dir selfMod : String) (tree : CodeTree) (fs : FileSys) (nid i : Nat)
    (h : i < (readBucket Kind.cls tree).length)
    (hskip : pathOf dir selfMod =
        pathOf dir (to_snake_case (nodeName ((readBucket Kind.cls tree).get ⟨i, h⟩))) ∨
      (pathOf dir selfMod ≠
          pathOf dir (to_snake_case (nodeName ((readBucket Kind.cls tree).get ⟨i, h⟩))) ∧
        strLower (pathOf dir selfMod) =
          strLower (pathOf dir (to_snake_case (nodeName ((readBucket Kind.cls tree).get ⟨i, h⟩)))))) :
    extractLoop enum (fuel + 1) dir selfMod tree fs nid i =
      extractLoop enum fuel dir selfMod tree fs nid (i + 1) := by
  simp only [extractLoop]
  rw [dif_pos h]
  rcases hskip with hs | hs
  · rw [if_pos hs]
  · rw [if_neg hs.1, if_pos hs]

/-- C2 (witness): a module `foo` holding a class `Foo` whose target path is
the module's own path — the loop pass only advances the cursor. -/
theorem C2_collision_skip_witness :
    extractLoop (fun l => l.dedup) 1 "d" "foo"
        [(Kind.cls, [PyNode.cls 0 "Foo" []])] [] 5 0 =
      extractLoop (fun l => l.dedup) 0 "d" "foo"
        [(Kind.cls, [PyNode.cls 0 "Foo" []])] [] 5 1 :=
  C2_collision_skip (fun l => l.dedup) 0 "d" "foo"
    [(Kind.cls, [PyNode.cls 0 "Foo" []])] [] 5 0 (by decide) (Or.inl (by decide))

/-- C1: at the failing input — module `Foo` (name not yet snake_case)
with one class and a sibling parseable file `util.py` — the first
`refactor` run aborts with the `AttributeError` raised inside
`find_module_dependent_files`, so no refactored tree exists and a second
run cannot reproduce one: the code crashes where the claim requires
completion and idempotence. -/
theorem C1_refactor_crashes_on_rename_with_sibling :
    refactor (fun l => l.dedup) "d" "Foo"
      [("d/Foo.py", [(Kind.cls, [PyNode.cls 0 "Bar" []])]),
       ("d/util.py", [(Kind.imp, [PyNode.imp 1 ["os"]])])] 2 =
      .error "AttributeError: object has no attribute names" := by
  rfl

end PyRefactor
